import Mathlib

/-!
Shallow embedding of the OCR orchestration pipeline of `script.js`
(IMGTextExtractor) together with proofs about its specified behavior.

Strings are modelled as `List Char`, JS numbers carrying OCR confidence
values as `ℚ`, and fallible JS evaluation as `Except`.  External
collaborators (OpenCV line detection, `Math.atan2`, the Tesseract engine)
are passed in as explicit parameters; everything the script itself
computes is translated directly from the source.
-/

namespace OCR

/-- RecognitionAttempt as built in `doExtract`:
`{text, avgConf, variant, psm}` with `variant = i + 1` for the
`i`-th processed variant (`raw` carries no further pipeline-relevant data
and is omitted). -/
structure Attempt where
  text : List Char
  avgConf : ℚ
  variant : Nat
  psm : String
  deriving DecidableEq

/-- Stable insertion of an attempt into a confidence-descending list: the
element is placed before the first entry whose confidence is not larger.
Together with `sortDesc` this realizes the stable (ES2019) `Array#sort`
with comparator `(a, b) => b.avgConf - a.avgConf` used in `doExtract`:
the unique permutation that is weakly descending in `avgConf` and keeps
equal-confidence attempts in their original order. -/
def insertDesc (a : Attempt) : List Attempt → List Attempt
  | [] => [a]
  | b :: l => if a.avgConf ≥ b.avgConf then a :: b :: l else b :: insertDesc a l

/-- Model of `results.sort((a, b) => b.avgConf - a.avgConf)`. -/
def sortDesc : List Attempt → List Attempt
  | [] => []
  | a :: l => insertDesc a (sortDesc l)

/-- The value selected in `doExtract` by `results[0] || {text: '', avgConf: 0}`:
the default object carries no `variant`/`psm` property, which is modelled by
`Option`. -/
structure BestPick where
  text : List Char
  avgConf : ℚ
  variant : Option Nat
  psm : Option String
  deriving DecidableEq

/-- Model of `const best = results[0] || { text: '', avgConf: 0 }` applied to
the sorted results array. -/
def selectBest (results : List Attempt) : BestPick :=
  match sortDesc results with
  | [] => ⟨[], 0, none, none⟩
  | b :: _ => ⟨b.text, b.avgConf, some b.variant, some b.psm⟩

/-- The fixed page-segmentation-mode list `const psms = ['6', '3', '4', '11']`. -/
def psms : List String := ["6", "3", "4", "11"]

/-- The fixed `tessedit_char_whitelist` string passed to every recognition call. -/
def wl : String := "ABCDEFGHIJKLMNOPQRSTUVWXYZabcdefghijklmnopqrstuvwxyz0123456789.,:-()/%&$ "

/-- Configuration of one `Tesseract.recognize` call as pushed onto `ocrTasks`:
the 1-based variant index of the blob together with the options object
(`'eng'`, the whitelist, the page-segmentation mode, `load_fast: false`). -/
structure OcrTask where
  variant : Nat
  lang : String
  psm : String
  whitelist : String
  loadFast : Bool
  deriving DecidableEq

/-- The task-construction loop of `doExtract`: for each variant index
`i < n` (variant-major) and each mode in `psms` (mode-minor), one
recognition request is pushed. -/
def buildOcrTasks (n : Nat) : List OcrTask :=
  (List.range n).flatMap fun i => psms.map fun p => ⟨i + 1, "eng", p, wl, false⟩

/-- The attempts produced by one run, with the OCR engine abstracted as a
function from `(variant, psm)` to the recognized text and confidence (the
`.then(res => ({...}))` continuation of each task). -/
def runOcr (n : Nat) (engine : Nat → String → List Char × ℚ) : List Attempt :=
  (buildOcrTasks n).map fun t =>
    ⟨(engine t.variant t.psm).1, (engine t.variant t.psm).2, t.variant, t.psm⟩

/-- First-maximum scan used to characterize the selector: a later element
replaces the current best only with strictly greater confidence. -/
def firstMax (a : Attempt) : List Attempt → Attempt
  | [] => a
  | b :: l => if (firstMax b l).avgConf > a.avgConf then firstMax b l else a

/-- Resolution step of `Promise.all`: the task at index `j` settles and its
value is written into slot `j` of the result array, independently of when
the other tasks settle. -/
def settleOne (tasks : List Attempt) (slots : List (Option Attempt)) (j : Nat) :
    List (Option Attempt) :=
  match tasks[j]? with
  | some t => slots.set j (some t)
  | none => slots

/-- Join step of `Promise.all`: the aggregate promise resolves with the
slot array once every slot holds a value. -/
def collectSlots : List (Option Attempt) → Option (List Attempt)
  | [] => some []
  | none :: _ => none
  | some a :: l => (collectSlots l).map (a :: ·)

/-- `Promise.all(ocrTasks)` with an explicit completion schedule: `order`
lists the task indices in the order in which the concurrent OCR requests
complete; each completion fills its own slot and the join returns the
fully-settled array. -/
def settleAll (tasks : List Attempt) (order : List Nat) : Option (List Attempt) :=
  collectSlots (order.foldl (settleOne tasks) (List.replicate tasks.length none))

/-- `Promise.all` at the level of settled outcomes, in dispatch order: the
aggregate rejects (with the error of a rejecting task) as soon as any task
rejects, and resolves with the list of all values otherwise. -/
def promiseAllE : List (Except String Attempt) → Except String (List Attempt)
  | [] => .ok []
  | .error e :: _ => .error e
  | .ok a :: rest => (promiseAllE rest).map (a :: ·)

/-- The dispatch-and-rank path of `doExtract`: the `!cvReady` guard at
entry, then `await Promise.all(ocrTasks)` followed by sorting and
selecting `results[0]`. -/
def dispatchAndSelect (cvReady : Bool) (tasks : List (Except String Attempt)) :
    Except String BestPick :=
  if !cvReady then .error "OpenCV not ready yet"
  else (promiseAllE tasks).map selectBest

/-- One line segment as returned by `cv.HoughLinesP` (`data32S` holds
32-bit integer endpoint coordinates `x1, y1, x2, y2`). -/
structure Segment where
  x1 : Int
  y1 : Int
  x2 : Int
  y2 : Int
  deriving DecidableEq

/-- Ascending insertion realizing `angles.sort((a, b) => a - b)`. -/
def insertAsc (a : ℚ) : List ℚ → List ℚ
  | [] => [a]
  | b :: l => if a ≤ b then a :: b :: l else b :: insertAsc a l

/-- Numeric ascending sort of the angle array. -/
def sortAsc : List ℚ → List ℚ
  | [] => []
  | a :: l => insertAsc a (sortAsc l)

/-- `Math.abs`. -/
def jsAbs (a : ℚ) : ℚ := if a < 0 then -a else a

/-- The angle-collection loop of `computeSkewAngle`: each segment yields
`atan2(y2 - y1, x2 - x1)` in degrees (the external `Math.atan2`, scaled by
`180 / π`, is the abstract parameter `atan2deg`) and is kept only when
`Math.abs(angle) < 45`. -/
def segAngles (segs : List Segment) (atan2deg : Int → Int → ℚ) : List ℚ :=
  (segs.map fun s => atan2deg (s.y2 - s.y1) (s.x2 - s.x1)).filter
    fun a => decide (jsAbs a < 45)

/-- `computeSkewAngle`: 0 when edge/line detection throws, 0 when no
filtered angles remain, and otherwise the element at index
`Math.floor(angles.length / 2)` of the ascending-sorted angle array. -/
def computeSkewAngle (detection : Except String (List Segment))
    (atan2deg : Int → Int → ℚ) : ℚ :=
  match detection with
  | .error _ => 0
  | .ok segs =>
    let angles := segAngles segs atan2deg
    if angles.isEmpty then 0 else (sortAsc angles).getD (angles.length / 2) 0

/-- Modelled from the spec's words: "take the median of remaining angles"
— the element at position `⌊n/2⌋` of the values in ascending order, i.e.
the middle element for odd `n` (and the upper middle for even `n`). -/
def medianSpec (l : List ℚ) : ℚ := (sortAsc l).getD (l.length / 2) 0

/-- Errors thrown by the tail of `doExtract` and caught by its
`try`/`catch`. -/
inductive JsError where
  | typeError
  | notReady
  deriving DecidableEq

/-- The winning-variant lookup `variants[Math.max(0, best.variant - 1)].mat`
executed after ranking: when `best` is the fallback object, `best.variant`
is `undefined` (`none`), `best.variant - 1` is `NaN`, `Math.max(0, NaN)` is
`NaN`, `variants[NaN]` is `undefined`, and reading `.mat` of `undefined`
throws a `TypeError`; an out-of-range index likewise yields `undefined`
and throws. -/
def lookupWinningMat {α : Type} (variants : List α) (bestVariant : Option Nat) :
    Except JsError α :=
  match bestVariant with
  | none => .error .typeError
  | some v =>
    match variants[(max 0 ((v : Int) - 1)).toNat]? with
    | some m => .ok m
    | none => .error .typeError

/-- The terminal artifact of one run: the text placed into the result area
and the confidence shown in the badge. -/
structure ExtractionResult where
  text : List Char
  avgConf : ℚ
  deriving DecidableEq

/-- U+200B ZERO WIDTH SPACE, stripped by the first `replace` of `cleanText`. -/
def zwsp : Char := '​'

/-- The JavaScript whitespace class (`\s`, also the set removed by
`String.prototype.trim`): space, the control whitespace characters,
NO-BREAK SPACE, OGHAM SPACE MARK, the U+2000–U+200A spaces, LINE and
PARAGRAPH SEPARATOR, NARROW NO-BREAK SPACE, MEDIUM MATHEMATICAL SPACE,
IDEOGRAPHIC SPACE and the BOM. -/
def jsWs (c : Char) : Bool :=
  c == ' ' || c == '\t' || c == '\n' || c == '\r' ||
  c == '\x0b' || c == '\x0c' ||
  c == ' ' || c == ' ' ||
  (decide (' ' ≤ c) && decide (c ≤ ' ')) ||
  c == ' ' || c == ' ' || c == ' ' || c == ' ' ||
  c == '　' || c == '﻿'

/-- The character class `[^\S\r\n]` of the second `replace` of `cleanText`:
whitespace other than carriage return and line feed. -/
def hws (c : Char) : Bool := jsWs c && c != '\r' && c != '\n'

/-- Run-collapsing scan implementing `replace(/[^\S\r\n]+/g, ' ')`: the
flag records whether the previous character belonged to a whitespace run
already replaced by one space. -/
def collapseRuns : Bool → List Char → List Char
  | _, [] => []
  | prev, c :: l =>
    if hws c then (if prev then collapseRuns true l else ' ' :: collapseRuns true l)
    else c :: collapseRuns false l

/-- `s.replace(/[^\S\r\n]+/g, ' ')`. -/
def collapseWs (s : List Char) : List Char := collapseRuns false s

/-- `s.replace(/[ \t]+\n/g, '\n')`: a space or tab is dropped exactly when
everything between it and the next kept character is also dropped and that
character is a line feed. -/
def stripTrail (s : List Char) : List Char :=
  s.foldr (fun c acc =>
    if (c == ' ' || c == '\t') && acc.head? == some '\n' then acc else c :: acc) []

/-- `s.replace(/\n{3,}/g, '\n\n')`: within each run of line feeds only the
last two are kept. -/
def squeezeNl (s : List Char) : List Char :=
  s.foldr (fun c acc =>
    if c == '\n' && acc.take 2 == ['\n', '\n'] then acc else c :: acc) []

/-- `s.split('\n')` (note `''.split('\n')` is `['']`). -/
def splitNl : List Char → List (List Char)
  | [] => [[]]
  | c :: l =>
    match splitNl l with
    | [] => [[]]
    | h :: t => if c == '\n' then [] :: h :: t else (c :: h) :: t

/-- `lines.join('\n')`. -/
def joinNl : List (List Char) → List Char
  | [] => []
  | [l] => l
  | l :: ls => l ++ '\n' :: joinNl ls

/-- Remove the longest trailing run of characters satisfying `p`. -/
def dropTrail (p : Char → Bool) (s : List Char) : List Char :=
  (s.reverse.dropWhile p).reverse

/-- `String.prototype.trim`: strip leading and trailing JS whitespace. -/
def jsTrim (s : List Char) : List Char := dropTrail jsWs (s.dropWhile jsWs)

/-- `s.split('\n').map(l => l.trim()).join('\n')`. -/
def trimLines (s : List Char) : List Char := joinNl ((splitNl s).map jsTrim)

/-- The first four stages of `cleanText` (everything before the per-line
trim and the final trim). -/
def preClean (s : List Char) : List Char :=
  squeezeNl (stripTrail (collapseWs (s.filter (fun c => c != zwsp))))

/-- `cleanText` from `script.js`: the `if (!s) return s` guard followed by
the five-stage normalization. -/
def cleanText (s : List Char) : List Char :=
  if s = [] then s
  else jsTrim (trimLines (squeezeNl (stripTrail (collapseWs
    (s.filter (fun c => c != zwsp))))))

/-- The tail of `doExtract` after the `Promise.all` join: pick the best
attempt, optionally normalize its text, and show the winning variant;
the `variants[Math.max(0, best.variant - 1)].mat` access can throw, in
which case the run ends in the `catch` branch. -/
def finishExtract {α : Type} (variants : List α) (results : List Attempt)
    (normalize : Bool) : Except JsError ExtractionResult :=
  let best := selectBest results
  let out := if normalize then cleanText best.text else best.text
  match lookupWinningMat variants best.variant with
  | .ok _ => .ok ⟨out, best.avgConf⟩
  | .error e => .error e

/-- The whole run after variant creation, for a run whose every OCR request
succeeds: build the tasks from the (possibly empty) variant list, run them,
and finish. -/
def runAfterVariants {α : Type} (variants : List α)
    (engine : Nat → String → List Char × ℚ) (normalize : Bool) :
    Except JsError ExtractionResult :=
  finishExtract variants (runOcr variants.length engine) normalize

/-- The two readiness flags `cvReady` and `tessReady`. -/
structure AppState where
  cvReady : Bool
  tessReady : Bool
  deriving DecidableEq

/-- `updateReady`: the Extract/Reprocess buttons are disabled unless both
libraries have loaded (`btnExtract.disabled = !(cvReady && tessReady)`). -/
def extractDisabled (st : AppState) : Bool := !(st.cvReady && st.tessReady)

/-- What a request for an extraction can result in. -/
inductive RequestOutcome where
  | ignored
  | noFileAlert
  | notReadyAlert
  | pipelineRuns
  deriving DecidableEq

/-- The guard at the top of `doExtract`: only `cvReady` is checked
(`if (!cvReady) return alert('OpenCV not ready yet — ...')`). -/
def doExtractGuard (st : AppState) : RequestOutcome :=
  if !st.cvReady then .notReadyAlert else .pipelineRuns

/-- A click on the Extract (or Reprocess) button: ignored while the button
is disabled, otherwise the handler alerts when no file is chosen and calls
`doExtract` when one is. -/
def clickExtract (st : AppState) (hasFile : Bool) : RequestOutcome :=
  if extractDisabled st then .ignored
  else if !hasFile then .noFileAlert
  else doExtractGuard st

/-- Characters that may appear in `cleanText` output: no zero-width space,
no carriage return (assuming none in the input), and any whitespace is a
plain space or a line feed. -/
def okChar (c : Char) : Bool :=
  c != zwsp && c != '\r' && (!(jsWs c) || c == ' ' || c == '\n')

/-- Adjacent-pair scan: `p` must hold of every two consecutive characters. -/
def pairScan (p : Char → Char → Bool) : List Char → Bool
  | [] => true
  | a :: l =>
    (match l.head? with
     | some b => p a b
     | none => true) && pairScan p l

/-- Allowed whitespace adjacency in normalized text: the only pair of
adjacent whitespace characters is a double line feed. -/
def okPair (a b : Char) : Bool :=
  !(jsWs a && jsWs b) || (a == '\n' && b == '\n')

/-- No two adjacent whitespace-class (`hws`) characters. -/
def hwsPair (a b : Char) : Bool := !(hws a && hws b)

/-- No space or tab immediately followed by a line feed. -/
def spTabNlPair (a b : Char) : Bool := !((a == ' ' || a == '\t') && b == '\n')

/-- No run of three or more line feeds. -/
def noTriple : List Char → Bool
  | [] => true
  | a :: l => !(a == '\n' && l.take 2 == ['\n', '\n']) && noTriple l

/-- The first character, when present, is not whitespace. -/
def headOk (s : List Char) : Bool :=
  match s.head? with
  | some c => !(jsWs c)
  | none => true

/-- The last character, when present, is not whitespace. -/
def lastOk (s : List Char) : Bool :=
  match s.getLast? with
  | some c => !(jsWs c)
  | none => true

/-- The first character, when present, is either not whitespace or a line
feed (the shape of every suffix of normalized text that starts at a line
boundary). -/
def headOkNl (s : List Char) : Bool :=
  match s.head? with
  | some c => !(jsWs c) || c == '\n'
  | none => true

/-- Normal form of `cleanText` output (for carriage-return-free input): no
zero-width spaces, all whitespace is a single space or one of at most two
consecutive line feeds, no space touching a line feed, and no leading or
trailing whitespace — so every line and the whole string are trimmed. -/
def NF (s : List Char) : Bool :=
  s.all okChar && pairScan okPair s && noTriple s && headOk s && lastOk s

/-- Well-formedness of one trimmed line: allowed characters, no line feed,
no two adjacent whitespace characters, trimmed at both ends. -/
def chunkOk (t : List Char) : Bool :=
  t.all (fun c => okChar c && c != '\n') && pairScan okPair t && headOk t && lastOk t

/-- Drop leading empty lines. -/
def dropLeadE : List (List Char) → List (List Char)
  | [] => []
  | t :: rest => if t.isEmpty then dropLeadE rest else t :: rest

/-- Drop trailing empty lines. -/
def dropTrailE (cs : List (List Char)) : List (List Char) :=
  (dropLeadE cs.reverse).reverse

/-- No two consecutive empty lines. -/
def noTwoEmpty : List (List Char) → Bool
  | [] => true
  | t :: rest =>
    (match rest.head? with
     | some u => !(t.isEmpty && u.isEmpty)
     | none => true) && noTwoEmpty rest

/-- Engine stub used to instantiate the dispatch theorems on concrete runs. -/
def sampleEngine : Nat → String → List Char × ℚ :=
  fun v p => (['t'], v + (if p = "3" then 10 else 0))

/-- Concrete stand-in for `Math.atan2(dy, dx) * 180 / Math.PI` used in
witnesses (`6°` for rising segments, `0` for horizontal ones). -/
def sampleAtan : Int → Int → ℚ :=
  fun dy _ => if dy = 0 then 0 else 6

section SortLemmas

theorem insertDesc_ne_nil (a : Attempt) (l : List Attempt) : insertDesc a l ≠ [] := by
  cases l with
  | nil => simp [insertDesc]
  | cons b l =>
    by_cases h : a.avgConf ≥ b.avgConf <;> simp [insertDesc, h]

theorem mem_insertDesc {x a : Attempt} {l : List Attempt} :
    x ∈ insertDesc a l ↔ x = a ∨ x ∈ l := by
  induction l with
  | nil => simp [insertDesc]
  | cons b l ih =>
    by_cases h : a.avgConf ≥ b.avgConf
    · simp [insertDesc, h]
    · simp [insertDesc, h, ih]
      tauto

theorem mem_sortDesc {x : Attempt} {l : List Attempt} :
    x ∈ sortDesc l ↔ x ∈ l := by
  induction l with
  | nil => simp [sortDesc]
  | cons a l ih => simp [sortDesc, mem_insertDesc, ih]

/-- The head of a stable descending insertion: the inserted element wins
ties against everything already present. -/
theorem head?_insertDesc (a : Attempt) (l : List Attempt) :
    (insertDesc a l).head? =
      some (match l.head? with
            | none => a
            | some b => if a.avgConf ≥ b.avgConf then a else b) := by
  cases l with
  | nil => simp [insertDesc]
  | cons b l =>
    by_cases h : a.avgConf ≥ b.avgConf <;> simp [insertDesc, h]

theorem head?_sortDesc (a : Attempt) (l : List Attempt) :
    (sortDesc (a :: l)).head? = some (firstMax a l) := by
  induction l generalizing a with
  | nil => simp [sortDesc, insertDesc, firstMax]
  | cons b l ih =>
    show (insertDesc a (sortDesc (b :: l))).head? = _
    rw [head?_insertDesc]
    have hb := ih b
    cases hsort : sortDesc (b :: l) with
    | nil => exact absurd hsort (by cases hl : sortDesc l <;> simp [sortDesc, hl, insertDesc_ne_nil])
    | cons c m =>
      rw [hsort] at hb
      simp only [List.head?_cons, Option.some.injEq] at hb
      subst hb
      simp only [List.head?_cons, firstMax]
      by_cases h : (firstMax b l).avgConf > a.avgConf
      · have : ¬ a.avgConf ≥ (firstMax b l).avgConf := not_le.mpr h
        simp [h, this]
      · have : a.avgConf ≥ (firstMax b l).avgConf := not_lt.mp h
        simp [h, this]

theorem firstMax_mem (a : Attempt) (l : List Attempt) : firstMax a l ∈ a :: l := by
  induction l generalizing a with
  | nil => simp [firstMax]
  | cons b l ih =>
    simp only [firstMax]
    by_cases h : (firstMax b l).avgConf > a.avgConf
    · simp only [h, if_pos]
      exact List.mem_cons_of_mem a (ih b)
    · simp [h]

theorem firstMax_ge (a : Attempt) (l : List Attempt) :
    ∀ x ∈ a :: l, x.avgConf ≤ (firstMax a l).avgConf := by
  induction l generalizing a with
  | nil => simp [firstMax]
  | cons b l ih =>
    intro x hx
    simp only [firstMax]
    rcases List.mem_cons.mp hx with rfl | hx'
    · by_cases h : (firstMax b l).avgConf > x.avgConf
      · simpa [h] using le_of_lt h
      · simp [h]
    · have hle := ih b x hx'
      by_cases h : (firstMax b l).avgConf > a.avgConf
      · simpa [h] using hle
      · simpa [h] using le_trans hle (not_lt.mp h)

/-- The first maximum splits the list into a strictly-smaller prefix, the
selected element, and a suffix: this is what "earliest in generation order
among the ties" means. -/
theorem firstMax_split (a : Attempt) (l : List Attempt) :
    ∃ l₁ l₂, a :: l = l₁ ++ firstMax a l :: l₂ ∧
      ∀ x ∈ l₁, x.avgConf < (firstMax a l).avgConf := by
  induction l generalizing a with
  | nil => exact ⟨[], [], by simp [firstMax], by simp⟩
  | cons b l ih =>
    by_cases h : (firstMax b l).avgConf > a.avgConf
    · obtain ⟨l₁, l₂, heq, hlt⟩ := ih b
      refine ⟨a :: l₁, l₂, ?_, ?_⟩
      · simp only [firstMax, h, if_pos, List.cons_append, heq]
      · intro x hx
        rcases List.mem_cons.mp hx with rfl | hx'
        · simp [firstMax, h]
        · have := hlt x hx'
          simpa [firstMax, h]
    · exact ⟨[], b :: l, by simp [firstMax, h], by simp⟩

end SortLemmas

theorem length_settleOne (tasks : List Attempt) (slots : List (Option Attempt)) (j : Nat) :
    (settleOne tasks slots j).length = slots.length := by
  unfold settleOne
  cases tasks[j]? <;> simp

theorem getElem?_foldl_settleOne (tasks : List Attempt) :
    ∀ (order : List Nat) (slots : List (Option Attempt)) (k : Nat),
      (∀ j ∈ order, j < tasks.length) → slots.length = tasks.length →
      (order.foldl (settleOne tasks) slots)[k]? =
        if k ∈ order then tasks[k]?.map some else slots[k]? := by
  intro order
  induction order with
  | nil => simp
  | cons j rest ih =>
    intro slots k hmem hlen
    have hj : j < tasks.length := hmem j (List.mem_cons_self j rest)
    have hstep : settleOne tasks slots j = slots.set j (some tasks[j]) := by
      unfold settleOne
      rw [List.getElem?_eq_getElem hj]
    rw [List.foldl_cons, ih (settleOne tasks slots j) k
      (fun i hi => hmem i (List.mem_cons_of_mem j hi))
      (by rw [length_settleOne, hlen])]
    by_cases hk : k ∈ rest
    · simp [hk, List.mem_cons]
    · by_cases hkj : k = j
      · subst hkj
        simp only [hk, if_false, hstep, List.mem_cons, true_or, if_true]
        rw [List.getElem?_set_self (by rw [hlen]; exact hj)]
        rw [List.getElem?_eq_getElem hj]
        rfl
      · have hnot : ¬ k ∈ j :: rest := by
          simp [List.mem_cons, hkj, hk]
        simp only [hk, if_false, hnot, if_false, hstep]
        rw [List.getElem?_set_ne (fun h => hkj h.symm)]

theorem collectSlots_map_some (l : List Attempt) :
    collectSlots (l.map some) = some l := by
  induction l with
  | nil => rfl
  | cons a l ih => simp [collectSlots, ih]

/-- `Promise.all` is insensitive to the completion order: any schedule that
settles every task yields the results in dispatch order. -/
theorem settleAll_perm (tasks : List Attempt) (order : List Nat)
    (h : order.Perm (List.range tasks.length)) :
    settleAll tasks order = some tasks := by
  have hmem : ∀ j ∈ order, j < tasks.length := by
    intro j hj
    exact List.mem_range.mp (h.mem_iff.mp hj)
  have hall : ∀ k, k < tasks.length → k ∈ order := by
    intro k hk
    exact h.mem_iff.mpr (List.mem_range.mpr hk)
  have hslots :
      order.foldl (settleOne tasks) (List.replicate tasks.length none) =
        tasks.map some := by
    apply List.ext_getElem?
    intro k
    rw [getElem?_foldl_settleOne tasks order _ k hmem (by simp)]
    by_cases hk : k < tasks.length
    · simp [hall k hk, List.getElem?_map, List.getElem?_eq_getElem hk]
    · have : ¬ k ∈ order := fun hc => hk (hmem k hc)
      simp only [this, if_false]
      rw [List.getElem?_eq_none (by simpa using not_lt.mp hk),
        List.getElem?_eq_none (by simpa using not_lt.mp hk)]
  rw [settleAll, hslots, collectSlots_map_some]

theorem length_buildOcrTasks (n : Nat) : (buildOcrTasks n).length = n * 4 := by
  induction n with
  | zero => rfl
  | succ n ih =>
    unfold buildOcrTasks at ih ⊢
    rw [List.range_succ, List.flatMap_append, List.length_append, ih]
    simp [psms]
    ring

theorem length_runOcr (n : Nat) (engine : Nat → String → List Char × ℚ) :
    (runOcr n engine).length = n * 4 := by
  rw [runOcr, List.length_map, length_buildOcrTasks]

theorem mem_buildOcrTasks {n : Nat} {t : OcrTask} (h : t ∈ buildOcrTasks n) :
    t.lang = "eng" ∧ t.whitelist = wl ∧ t.loadFast = false ∧
      t.psm ∈ psms ∧ 1 ≤ t.variant ∧ t.variant ≤ n := by
  rw [buildOcrTasks, List.mem_flatMap] at h
  obtain ⟨i, hi, ht⟩ := h
  rw [List.mem_map] at ht
  obtain ⟨p, hp, rfl⟩ := ht
  refine ⟨rfl, rfl, rfl, hp, Nat.succ_le_succ (Nat.zero_le i), ?_⟩
  exact Nat.succ_le_of_lt (List.mem_range.mp hi)

theorem count_psm_block {m i : Nat} {p : String} (hp : p ∈ psms) :
    (psms.map fun q => (⟨m + 1, "eng", q, wl, false⟩ : OcrTask)).count
        ⟨i, "eng", p, wl, false⟩ = if i = m + 1 then 1 else 0 := by
  have hps : p = "6" ∨ p = "3" ∨ p = "4" ∨ p = "11" := by
    simpa [psms] using hp
  by_cases hi : i = m + 1 <;>
    rcases hps with rfl | rfl | rfl | rfl <;>
      simp [psms, List.count_cons, OcrTask.mk.injEq, hi]

theorem count_buildOcrTasks {n i : Nat} {p : String}
    (h1 : 1 ≤ i) (h2 : i ≤ n) (hp : p ∈ psms) :
    (buildOcrTasks n).count ⟨i, "eng", p, wl, false⟩ = 1 := by
  induction n with
  | zero => omega
  | succ n ih =>
    unfold buildOcrTasks at ih ⊢
    rw [List.range_succ, List.flatMap_append, List.count_append]
    simp only [List.flatMap_cons, List.flatMap_nil, List.append_nil]
    rw [count_psm_block hp]
    by_cases hin : i = n + 1
    · have hz : (buildOcrTasks n).count ⟨i, "eng", p, wl, false⟩ = 0 := by
        rw [List.count_eq_zero]
        intro hmem
        have := (mem_buildOcrTasks hmem).2.2.2.2.2
        simp only at this
        omega
      unfold buildOcrTasks at hz
      rw [hz, hin]
      simp
    · have hle : i ≤ n := by omega
      rw [ih hle, if_neg hin]

/-- C6: exactly `variantCount × 4` recognition requests are constructed, one
per (variant, page-segmentation-mode) pair over the fixed mode list
`["6","3","4","11"]`, each configured with English language, the fixed
character whitelist, that pair's page-segmentation mode, and the non-fast
engine mode. -/
theorem C6_task_construction (n : Nat) :
    (buildOcrTasks n).length = n * 4 ∧
    (∀ t ∈ buildOcrTasks n, t.lang = "eng" ∧ t.whitelist = wl ∧ t.loadFast = false ∧
      t.psm ∈ psms ∧ 1 ≤ t.variant ∧ t.variant ≤ n) ∧
    (∀ i p, 1 ≤ i → i ≤ n → p ∈ psms →
      (buildOcrTasks n).count ⟨i, "eng", p, wl, false⟩ = 1) :=
  ⟨length_buildOcrTasks n, fun _ ht => mem_buildOcrTasks ht,
    fun _ _ h1 h2 hp => count_buildOcrTasks h1 h2 hp⟩

/-- Witness for C6 at a concrete run with two variants. -/
theorem C6_task_construction_witness :
    (buildOcrTasks 2).count ⟨1, "eng", "4", wl, false⟩ = 1 :=
  (C6_task_construction 2).2.2 1 "4" (by decide) (by decide) (by simp [psms])

/-- C8: when the list of RecognitionAttempts handed to the Result Selector
is empty, the selected result is the default value with empty text and
confidence score 0 (and no `variant`/`psm` property). -/
theorem C8_empty_selection : selectBest [] = ⟨[], 0, none, none⟩ := rfl

/-- C1: for a run with at least one variant, the Result Selector returns
the attempt of maximum `avgConf`; among equal-confidence attempts it
returns the earliest one in generation order (the list splits into a
strictly lower-confidence prefix followed by the selected attempt); and
the array handed to the selector — hence the selected attempt — is the
same for every completion order of the concurrent requests. -/
theorem C1_selector_stable_max (n : Nat) (engine : Nat → String → List Char × ℚ)
    (order : List Nat) (hn : 1 ≤ n)
    (hord : order.Perm (List.range (runOcr n engine).length)) :
    settleAll (runOcr n engine) order = some (runOcr n engine) ∧
    ∃ b l₁ l₂,
      (sortDesc (runOcr n engine)).head? = some b ∧
      selectBest (runOcr n engine) = ⟨b.text, b.avgConf, some b.variant, some b.psm⟩ ∧
      runOcr n engine = l₁ ++ b :: l₂ ∧
      (∀ x ∈ l₁, x.avgConf < b.avgConf) ∧
      (∀ x ∈ runOcr n engine, x.avgConf ≤ b.avgConf) := by
  refine ⟨settleAll_perm _ order hord, ?_⟩
  have hne : runOcr n engine ≠ [] := by
    intro hc
    have := length_runOcr n engine
    rw [hc] at this
    simp at this
    omega
  obtain ⟨a, rest, hl⟩ : ∃ a rest, runOcr n engine = a :: rest := by
    cases hcase : runOcr n engine with
    | nil => exact absurd hcase hne
    | cons a rest => exact ⟨a, rest, rfl⟩
  rw [hl]
  refine ⟨firstMax a rest, ?_⟩
  obtain ⟨l₁, l₂, hsplit, hlt⟩ := firstMax_split a rest
  refine ⟨l₁, l₂, head?_sortDesc a rest, ?_, hsplit, hlt, firstMax_ge a rest⟩
  rw [selectBest]
  have hhead := head?_sortDesc a rest
  cases hsort : sortDesc (a :: rest) with
  | nil => rw [hsort] at hhead; simp at hhead
  | cons c m =>
    rw [hsort] at hhead
    simp only [List.head?_cons, Option.some.injEq] at hhead
    rw [hhead]

/-- Witness for C1 on a one-variant run with a shuffled completion order. -/
theorem C1_selector_stable_max_witness :
    settleAll (runOcr 1 sampleEngine) [3, 0, 2, 1] = some (runOcr 1 sampleEngine) ∧
    ∃ b l₁ l₂,
      (sortDesc (runOcr 1 sampleEngine)).head? = some b ∧
      selectBest (runOcr 1 sampleEngine) = ⟨b.text, b.avgConf, some b.variant, some b.psm⟩ ∧
      runOcr 1 sampleEngine = l₁ ++ b :: l₂ ∧
      (∀ x ∈ l₁, x.avgConf < b.avgConf) ∧
      (∀ x ∈ runOcr 1 sampleEngine, x.avgConf ≤ b.avgConf) :=
  C1_selector_stable_max 1 sampleEngine [3, 0, 2, 1] (by decide) (by decide)

theorem promiseAllE_ok_iff (tasks : List (Except String Attempt)) :
    (∃ l, promiseAllE tasks = .ok l) ↔ ∀ t ∈ tasks, ∃ a, t = .ok a := by
  induction tasks with
  | nil => simp [promiseAllE]
  | cons t rest ih =>
    cases t with
    | error e =>
      simp only [promiseAllE]
      constructor
      · rintro ⟨l, hl⟩
        cases hl
      · intro h
        obtain ⟨a, ha⟩ := h (.error e) (List.mem_cons_self _ _)
        cases ha
    | ok a =>
      simp only [promiseAllE]
      constructor
      · rintro ⟨l, hl⟩
        cases hrest : promiseAllE rest with
        | error e => rw [hrest] at hl; cases hl
        | ok l' =>
          intro t ht
          rcases List.mem_cons.mp ht with rfl | ht'
          · exact ⟨a, rfl⟩
          · exact (ih.mp ⟨l', hrest⟩) t ht'
      · intro h
        obtain ⟨l', hl'⟩ := ih.mpr fun t ht => h t (List.mem_cons_of_mem _ ht)
        exact ⟨a :: l', by rw [hl']; rfl⟩

theorem promiseAllE_first_error (e : String) (rest : List (Except String Attempt)) :
    ∀ pre, (∀ t ∈ pre, ∃ a, t = .ok a) →
      promiseAllE (pre ++ .error e :: rest) = .error e := by
  intro pre
  induction pre with
  | nil => intro _; rfl
  | cons t pre' ih =>
    intro h
    obtain ⟨a, rfl⟩ := h t (List.mem_cons_self _ _)
    have hrest := ih fun t ht => h t (List.mem_cons_of_mem _ ht)
    show promiseAllE (.ok a :: (pre' ++ .error e :: rest)) = .error e
    rw [promiseAllE, hrest]
    rfl

/-- C2 counterexample: with the engine initialized, a batch containing one
successful attempt and one rejected request rejects as a whole — the
successful attempt is never collected or ranked — and its error is a plain
request failure, not the engine-not-initialized failure. -/
theorem C2_counterexample :
    dispatchAndSelect true [.ok ⟨['h', 'i'], 90, 1, "6"⟩, .error "network failure"] =
      .error "network failure" ∧
    "network failure" ≠ "OpenCV not ready yet" :=
  ⟨rfl, by decide⟩

/-- C2 (amended): the dispatch is all-or-nothing — it yields a ranked result
exactly when the engine is initialized and every request succeeds, and a
batch whose first failure is preceded by successes rejects with that
failure, discarding the successful results. -/
theorem C2_dispatch_all_or_nothing (cv : Bool) (tasks : List (Except String Attempt)) :
    ((∃ b, dispatchAndSelect cv tasks = .ok b) ↔
      (cv = true ∧ ∀ t ∈ tasks, ∃ a, t = .ok a)) ∧
    (∀ pre e rest, cv = true → tasks = pre ++ .error e :: rest →
      (∀ t ∈ pre, ∃ a, t = .ok a) → dispatchAndSelect cv tasks = .error e) := by
  cases cv with
  | false =>
    constructor
    · constructor
      · rintro ⟨b, hb⟩
        cases hb
      · rintro ⟨h, -⟩
        cases h
    · intro _ _ _ h
      cases h
  | true =>
    constructor
    · rw [← promiseAllE_ok_iff]
      constructor
      · rintro ⟨b, hb⟩
        simp only [dispatchAndSelect, Bool.not_true, Bool.false_eq_true, if_false] at hb
        cases hp : promiseAllE tasks with
        | error e => rw [hp] at hb; cases hb
        | ok l => exact ⟨rfl, l, rfl⟩
      · rintro ⟨-, l, hl⟩
        exact ⟨selectBest l, by simp [dispatchAndSelect, hl]; rfl⟩
    · rintro pre e rest - rfl hpre
      simp only [dispatchAndSelect, Bool.not_true, Bool.false_eq_true, if_false]
      rw [promiseAllE_first_error e rest pre hpre]
      rfl

/-- Witness for the amended C2 on a concrete singleton batch. -/
theorem C2_dispatch_all_or_nothing_witness :
    dispatchAndSelect true [Except.error "boom"] = .error "boom" :=
  (C2_dispatch_all_or_nothing true [Except.error "boom"]).2 [] "boom" [] rfl rfl
    (by intro t ht; simp at ht)

/-- C9 counterexample: with OpenCV loaded but the OCR engine flag still
false, `doExtract` raises no precondition failure — its guard checks only
`cvReady` — and the pipeline body is entered. -/
theorem C9_counterexample :
    doExtractGuard ⟨true, false⟩ = .pipelineRuns ∧
    (AppState.mk true false).tessReady = false :=
  ⟨rfl, rfl⟩

/-- C9 (amended): `doExtract` itself fails as a precondition failure exactly
when the image-processing flag is unset; the OCR flag gates extraction only
through the button-enabled state maintained by `updateReady`, so a click
starts the pipeline iff both flags are set (an ineligible click is silently
ignored rather than surfaced). -/
theorem C9_readiness_gating (st : AppState) (hasFile : Bool) :
    (doExtractGuard st = .notReadyAlert ↔ st.cvReady = false) ∧
    (clickExtract st hasFile = .pipelineRuns ↔
      st.cvReady = true ∧ st.tessReady = true ∧ hasFile = true) := by
  obtain ⟨cv, ts⟩ := st
  cases cv <;> cases ts <;> cases hasFile <;> exact (by decide)

/-- Witness for the amended C9: both flags set and a file chosen starts the
pipeline. -/
theorem C9_readiness_gating_witness :
    clickExtract ⟨true, true⟩ true = .pipelineRuns :=
  (C9_readiness_gating ⟨true, true⟩ true).2.mpr ⟨rfl, rfl, rfl⟩

theorem length_insertAsc (a : ℚ) (l : List ℚ) :
    (insertAsc a l).length = l.length + 1 := by
  induction l with
  | nil => rfl
  | cons b l ih =>
    simp only [insertAsc]
    by_cases h : a ≤ b
    · rw [if_pos h]
      simp
    · rw [if_neg h]
      simp [ih]

theorem length_sortAsc (l : List ℚ) : (sortAsc l).length = l.length := by
  induction l with
  | nil => rfl
  | cons a l ih => rw [sortAsc, length_insertAsc, ih, List.length_cons]

theorem mem_insertAsc {x a : ℚ} {l : List ℚ} :
    x ∈ insertAsc a l ↔ x = a ∨ x ∈ l := by
  induction l with
  | nil => simp [insertAsc]
  | cons b l ih =>
    by_cases h : a ≤ b
    · simp [insertAsc, h]
    · simp [insertAsc, h, ih]
      tauto

theorem mem_sortAsc {x : ℚ} {l : List ℚ} : x ∈ sortAsc l ↔ x ∈ l := by
  induction l with
  | nil => simp [sortAsc]
  | cons a l ih => simp [sortAsc, mem_insertAsc, ih]

theorem jsAbs_eq_abs (a : ℚ) : jsAbs a = |a| := by
  rw [jsAbs]
  by_cases h : a < 0
  · rw [if_pos h, abs_of_neg h]
  · rw [if_neg h, abs_of_nonneg (not_lt.mp h)]

theorem mem_segAngles_bound {segs : List Segment} {atan2deg : Int → Int → ℚ} {x : ℚ}
    (h : x ∈ segAngles segs atan2deg) : -45 < x ∧ x < 45 := by
  rw [segAngles, List.mem_filter] at h
  have := of_decide_eq_true h.2
  rw [jsAbs_eq_abs] at this
  exact abs_lt.mp this

/-- C3: the skew estimate is the median (at index `⌊n/2⌋` of the sorted
angles) of the `atan2`-derived segment angles surviving the `|angle| < 45°`
filter; it is 0 when detection throws or no angle survives; and it always
lies in the open interval (−45, 45). -/
theorem C3_skew_median (detection : Except String (List Segment))
    (atan2deg : Int → Int → ℚ) :
    (-45 < computeSkewAngle detection atan2deg ∧
      computeSkewAngle detection atan2deg < 45) ∧
    (∀ e, detection = .error e → computeSkewAngle detection atan2deg = 0) ∧
    (∀ segs, detection = .ok segs →
      (segAngles segs atan2deg = [] → computeSkewAngle detection atan2deg = 0) ∧
      (segAngles segs atan2deg ≠ [] →
        computeSkewAngle detection atan2deg = medianSpec (segAngles segs atan2deg) ∧
        computeSkewAngle detection atan2deg ∈ segAngles segs atan2deg)) := by
  have hzero : (-45 : ℚ) < 0 ∧ (0 : ℚ) < 45 := by norm_num
  cases detection with
  | error e =>
    refine ⟨hzero, fun _ _ => rfl, fun segs h => ?_⟩
    exact absurd h (by simp)
  | ok segs =>
    by_cases hempty : segAngles segs atan2deg = []
    · refine ⟨?_, fun e h => absurd h (by simp), fun segs' hs => ?_⟩
      · simp only [computeSkewAngle, hempty, List.isEmpty_nil, if_true]
        exact hzero
      · cases hs
        exact ⟨fun _ => by simp [computeSkewAngle, hempty], fun hne => absurd hempty hne⟩
    · have hval : computeSkewAngle (.ok segs) atan2deg =
          (sortAsc (segAngles segs atan2deg)).getD ((segAngles segs atan2deg).length / 2) 0 := by
        simp only [computeSkewAngle, List.isEmpty_iff, hempty, if_false]
      have hlen : (segAngles segs atan2deg).length / 2 <
          (sortAsc (segAngles segs atan2deg)).length := by
        rw [length_sortAsc]
        exact Nat.div_lt_self (List.length_pos.mpr hempty) (by norm_num)
      have hmem : computeSkewAngle (.ok segs) atan2deg ∈ segAngles segs atan2deg := by
        rw [hval, List.getD_eq_getElem _ _ hlen]
        exact mem_sortAsc.mp (List.getElem_mem hlen)
      refine ⟨mem_segAngles_bound hmem, fun e h => absurd h (by simp), fun segs' hs => ?_⟩
      cases hs
      exact ⟨fun h => absurd h hempty, fun _ => ⟨hval, hmem⟩⟩

/-- Witness for C3 on two concrete segments (one tilted, one horizontal). -/
theorem C3_skew_median_witness :
    computeSkewAngle (.ok [⟨0, 0, 10, 1⟩, ⟨0, 0, 1, 0⟩]) sampleAtan =
      medianSpec (segAngles [⟨0, 0, 10, 1⟩, ⟨0, 0, 1, 0⟩] sampleAtan) ∧
    computeSkewAngle (.ok [⟨0, 0, 10, 1⟩, ⟨0, 0, 1, 0⟩]) sampleAtan ∈
      segAngles [⟨0, 0, 10, 1⟩, ⟨0, 0, 1, 0⟩] sampleAtan :=
  ((C3_skew_median (.ok [⟨0, 0, 10, 1⟩, ⟨0, 0, 1, 0⟩]) sampleAtan).2.2
    [⟨0, 0, 10, 1⟩, ⟨0, 0, 1, 0⟩] rfl).2 (by decide)

/-- C4 (code evaluated at the failing input): when every variant recipe has
failed the attempts list is empty and the fallback `best` object is the
empty-text zero-confidence value, but the run does not complete with it —
the winning-variant display step `variants[Math.max(0, best.variant - 1)].mat`
evaluates `undefined - 1 = NaN` and throws a `TypeError`, so the run ends in
the `catch` branch instead of returning the empty result. -/
theorem C4_empty_variants_throws :
    runAfterVariants ([] : List Unit) sampleEngine true = .error .typeError ∧
    selectBest (runOcr 0 sampleEngine) = ⟨[], 0, none, none⟩ :=
  ⟨rfl, rfl⟩

/-- C10: every attempt of a run carries a `variantIndex` in `[1, N]`, and
for a run with at least one variant the winning-variant lookup
`variants[Math.max(0, best.variant - 1)]` is in bounds and succeeds. -/
theorem C10_winning_lookup_in_bounds {α : Type} (vs : List α)
    (engine : Nat → String → List Char × ℚ) (hne : vs ≠ []) :
    (∀ r ∈ runOcr vs.length engine, 1 ≤ r.variant ∧ r.variant ≤ vs.length) ∧
    ∃ m, lookupWinningMat vs (selectBest (runOcr vs.length engine)).variant = .ok m := by
  have hvar : ∀ r ∈ runOcr vs.length engine, 1 ≤ r.variant ∧ r.variant ≤ vs.length := by
    intro r hr
    rw [runOcr, List.mem_map] at hr
    obtain ⟨t, ht, rfl⟩ := hr
    exact ⟨(mem_buildOcrTasks ht).2.2.2.2.1, (mem_buildOcrTasks ht).2.2.2.2.2⟩
  refine ⟨hvar, ?_⟩
  have hlenpos : 1 ≤ vs.length := List.length_pos.mpr hne
  have hne' : runOcr vs.length engine ≠ [] := by
    intro hc
    have hlen := length_runOcr vs.length engine
    rw [hc] at hlen
    simp only [List.length_nil] at hlen
    omega
  obtain ⟨a, rest, hl⟩ : ∃ a rest, runOcr vs.length engine = a :: rest := by
    cases hcase : runOcr vs.length engine with
    | nil => exact absurd hcase hne'
    | cons a rest => exact ⟨a, rest, rfl⟩
  have hsel : (selectBest (runOcr vs.length engine)).variant =
      some (firstMax a rest).variant := by
    rw [selectBest]
    have hhead := head?_sortDesc a rest
    rw [hl]
    cases hsort : sortDesc (a :: rest) with
    | nil => rw [hsort] at hhead; simp at hhead
    | cons c m =>
      rw [hsort] at hhead
      simp only [List.head?_cons, Option.some.injEq] at hhead
      rw [hhead]
  have hfm : 1 ≤ (firstMax a rest).variant ∧ (firstMax a rest).variant ≤ vs.length := by
    apply hvar
    rw [hl]
    exact firstMax_mem a rest
  rw [hsel, lookupWinningMat]
  have h1 : 1 ≤ (firstMax a rest).variant := hfm.1
  have h2 : (firstMax a rest).variant ≤ vs.length := hfm.2
  have hmax : max 0 (((firstMax a rest).variant : Int) - 1) =
      ((firstMax a rest).variant : Int) - 1 :=
    max_eq_right (by omega)
  have hidx : (max 0 (((firstMax a rest).variant : Int) - 1)).toNat < vs.length := by
    rw [hmax]
    omega
  rw [List.getElem?_eq_getElem hidx]
  exact ⟨_, rfl⟩

/-- Witness for C10 on a concrete two-variant run. -/
theorem C10_winning_lookup_in_bounds_witness :
    (∀ r ∈ runOcr [7, 9].length sampleEngine, 1 ≤ r.variant ∧ r.variant ≤ [7, 9].length) ∧
    ∃ m, lookupWinningMat [7, 9]
      (selectBest (runOcr [7, 9].length sampleEngine)).variant = .ok m :=
  C10_winning_lookup_in_bounds [7, 9] sampleEngine (by decide)

section PairScanLemmas

variable {p : Char → Char → Bool}

theorem pairScan_cons_eq (a : Char) (l : List Char) :
    pairScan p (a :: l) =
      ((match l.head? with | some b => p a b | none => true) && pairScan p l) := rfl

theorem pairScan_tail {a : Char} {l : List Char}
    (h : pairScan p (a :: l) = true) : pairScan p l = true := by
  rw [pairScan_cons_eq, Bool.and_eq_true] at h
  exact h.2

theorem pairScan_head {a b : Char} {l : List Char}
    (h : pairScan p (a :: l) = true) (hb : l.head? = some b) : p a b = true := by
  rw [pairScan_cons_eq, Bool.and_eq_true] at h
  have h1 := h.1
  rw [hb] at h1
  exact h1

theorem pairScan_cons_of {a : Char} {l : List Char}
    (hhead : ∀ b, l.head? = some b → p a b = true)
    (htail : pairScan p l = true) : pairScan p (a :: l) = true := by
  rw [pairScan_cons_eq, Bool.and_eq_true]
  refine ⟨?_, htail⟩
  cases hl : l.head? with
  | none => rfl
  | some b => exact hhead b hl

theorem pairScan_append_left {xs ys : List Char}
    (h : pairScan p (xs ++ ys) = true) : pairScan p xs = true := by
  induction xs with
  | nil => rfl
  | cons a xs ih =>
    rw [List.cons_append] at h
    refine pairScan_cons_of ?_ (ih (pairScan_tail h))
    intro b hb
    refine pairScan_head h ?_
    cases xs with
    | nil => cases hb
    | cons c xs' =>
      simp only [List.head?_cons, Option.some.injEq] at hb
      simp [hb]

theorem pairScan_append_right {xs ys : List Char}
    (h : pairScan p (xs ++ ys) = true) : pairScan p ys = true := by
  induction xs with
  | nil => exact h
  | cons a xs ih =>
    rw [List.cons_append] at h
    exact ih (pairScan_tail h)

theorem pairScan_append_pair {xs ys : List Char} {a b : Char}
    (h : pairScan p (xs ++ ys) = true)
    (hlast : xs.getLast? = some a) (hhead : ys.head? = some b) : p a b = true := by
  induction xs with
  | nil => cases hlast
  | cons c xs ih =>
    rw [List.cons_append] at h
    cases xs with
    | nil =>
      simp only [List.getLast?_singleton, Option.some.injEq] at hlast
      subst hlast
      refine pairScan_head h ?_
      cases ys with
      | nil => cases hhead
      | cons d ys' => simpa using hhead
    | cons d xs' =>
      rw [List.getLast?_cons_cons] at hlast
      exact ih (pairScan_tail h) hlast

theorem pairScan_append_of {xs ys : List Char}
    (hxs : pairScan p xs = true) (hys : pairScan p ys = true)
    (hbound : ∀ a b, xs.getLast? = some a → ys.head? = some b → p a b = true) :
    pairScan p (xs ++ ys) = true := by
  induction xs with
  | nil => exact hys
  | cons a xs ih =>
    rw [List.cons_append]
    refine pairScan_cons_of ?_ ?_
    · intro b hb
      cases xs with
      | nil =>
        exact hbound a b rfl (by simpa using hb)
      | cons c xs' =>
        simp only [List.cons_append, List.head?_cons, Option.some.injEq] at hb
        exact pairScan_head hxs (by simp [hb])
    · refine ih (pairScan_tail hxs) ?_
      intro a' b' hl hh
      refine hbound a' b' ?_ hh
      cases xs with
      | nil => cases hl
      | cons c xs' => rw [List.getLast?_cons_cons]; exact hl

/-- A pairwise property can be weakened pointwise on the elements present. -/
theorem pairScan_mono {q : Char → Char → Bool} {l : List Char}
    (himp : ∀ a b, a ∈ l → b ∈ l → p a b = true → q a b = true)
    (h : pairScan p l = true) : pairScan q l = true := by
  induction l with
  | nil => rfl
  | cons a l ih =>
    refine pairScan_cons_of ?_ ?_
    · intro b hb
      refine himp a b (List.mem_cons_self _ _) ?_ (pairScan_head h hb)
      exact List.mem_cons_of_mem _ (List.mem_of_mem_head? hb)
    · refine ih (fun x y hx hy hp => ?_) (pairScan_tail h)
      exact himp x y (List.mem_cons_of_mem _ hx) (List.mem_cons_of_mem _ hy) hp

end PairScanLemmas

section TrimLemmas

variable {p : Char → Bool}

theorem head?_dropWhile {l : List Char} {c : Char}
    (h : (l.dropWhile p).head? = some c) : p c = false := by
  induction l with
  | nil => cases h
  | cons a l ih =>
    rw [List.dropWhile_cons] at h
    by_cases ha : p a
    · rw [if_pos ha] at h
      exact ih h
    · rw [if_neg ha] at h
      simp only [List.head?_cons, Option.some.injEq] at h
      subst h
      exact Bool.not_eq_true _ ▸ (by simpa using ha)

theorem dropWhile_eq_self_of_head {l : List Char}
    (h : ∀ c, l.head? = some c → p c = false) : l.dropWhile p = l := by
  cases l with
  | nil => rfl
  | cons a l =>
    rw [List.dropWhile_cons, if_neg]
    rw [h a rfl]
    simp

theorem exists_append_dropWhile (l : List Char) :
    ∃ u, l = u ++ l.dropWhile p ∧ ∀ c ∈ u, p c = true := by
  induction l with
  | nil => exact ⟨[], rfl, by simp⟩
  | cons a l ih =>
    by_cases ha : p a
    · obtain ⟨u, hu, hall⟩ := ih
      refine ⟨a :: u, ?_, ?_⟩
      · rw [List.dropWhile_cons, if_pos ha, List.cons_append, ← hu]
      · intro c hc
        rcases List.mem_cons.mp hc with rfl | hc'
        · exact ha
        · exact hall c hc'
    · refine ⟨[], ?_, by simp⟩
      rw [List.dropWhile_cons, if_neg ha, List.nil_append]

theorem getLast?_dropTrail {l : List Char} {c : Char}
    (h : (dropTrail p l).getLast? = some c) : p c = false := by
  rw [dropTrail, List.getLast?_reverse] at h
  exact head?_dropWhile h

theorem dropTrail_eq_self_of_getLast {l : List Char}
    (h : ∀ c, l.getLast? = some c → p c = false) : dropTrail p l = l := by
  rw [dropTrail, dropWhile_eq_self_of_head, List.reverse_reverse]
  intro c hc
  rw [List.head?_reverse] at hc
  exact h c hc

theorem exists_dropTrail_append (l : List Char) :
    ∃ v, l = dropTrail p l ++ v ∧ ∀ c ∈ v, p c = true := by
  obtain ⟨u, hu, hall⟩ := exists_append_dropWhile (p := p) l.reverse
  refine ⟨u.reverse, ?_, ?_⟩
  · rw [dropTrail]
    calc l = l.reverse.reverse := (List.reverse_reverse l).symm
    _ = (u ++ l.reverse.dropWhile p).reverse := by rw [← hu]
    _ = (l.reverse.dropWhile p).reverse ++ u.reverse := List.reverse_append u _
  · intro c hc
    exact hall c (List.mem_reverse.mp hc)

theorem mem_dropWhile_subset {l : List Char} {c : Char}
    (h : c ∈ l.dropWhile p) : c ∈ l := by
  obtain ⟨u, hu, -⟩ := exists_append_dropWhile (p := p) l
  rw [hu]
  exact List.mem_append_right u h

theorem mem_dropTrail {l : List Char} {c : Char} (h : c ∈ dropTrail p l) : c ∈ l := by
  rw [dropTrail, List.mem_reverse] at h
  exact List.mem_reverse.mp (mem_dropWhile_subset h)

theorem headOk_jsTrim (s : List Char) : headOk (jsTrim s) = true := by
  rw [headOk]
  cases hh : (jsTrim s).head? with
  | none => rfl
  | some c =>
    rw [jsTrim] at hh
    obtain ⟨v, hv, -⟩ := exists_dropTrail_append (p := jsWs) (s.dropWhile jsWs)
    have hc : (s.dropWhile jsWs).head? = some c := by
      rw [hv]
      cases hd : dropTrail jsWs (s.dropWhile jsWs) with
      | nil => rw [hd] at hh; cases hh
      | cons a t =>
        rw [hd] at hh
        simp only [List.head?_cons, Option.some.injEq] at hh
        subst hh
        simp
    have hw := head?_dropWhile hc
    simp [hw]

theorem lastOk_jsTrim (s : List Char) : lastOk (jsTrim s) = true := by
  rw [lastOk]
  cases hh : (jsTrim s).getLast? with
  | none => rfl
  | some c =>
    rw [jsTrim] at hh
    have hw := getLast?_dropTrail hh
    simp [hw]

theorem jsTrim_eq_self {s : List Char} (h1 : headOk s = true) (h2 : lastOk s = true) :
    jsTrim s = s := by
  rw [jsTrim, dropWhile_eq_self_of_head, dropTrail_eq_self_of_getLast]
  · intro c hc
    rw [lastOk, hc] at h2
    simpa using h2
  · intro c hc
    rw [headOk, hc] at h1
    simpa using h1

theorem mem_jsTrim {s : List Char} {c : Char} (h : c ∈ jsTrim s) : c ∈ s := by
  rw [jsTrim] at h
  exact mem_dropWhile_subset (mem_dropTrail h)

theorem pairScan_jsTrim {q : Char → Char → Bool} {s : List Char}
    (h : pairScan q s = true) : pairScan q (jsTrim s) = true := by
  obtain ⟨u, hu, -⟩ := exists_append_dropWhile (p := jsWs) s
  obtain ⟨v, hv, -⟩ := exists_dropTrail_append (p := jsWs) (s.dropWhile jsWs)
  rw [hu] at h
  have h2 := pairScan_append_right h
  rw [hv] at h2
  exact pairScan_append_left h2

theorem jsTrim_eq_nil_iff {s : List Char} :
    jsTrim s = [] ↔ ∀ c ∈ s, jsWs c = true := by
  constructor
  · intro h c hc
    obtain ⟨u, hu, hallu⟩ := exists_append_dropWhile (p := jsWs) s
    obtain ⟨v, hv, hallv⟩ := exists_dropTrail_append (p := jsWs) (s.dropWhile jsWs)
    rw [jsTrim] at h
    rw [hu, hv, h, List.nil_append] at hc
    rcases List.mem_append.mp hc with hcu | hcv
    · exact hallu c hcu
    · exact hallv c hcv
  · intro h
    have : s.dropWhile jsWs = [] := List.dropWhile_eq_nil_iff.mpr fun c hc => by
      simp [h c hc]
    rw [jsTrim, this]
    rfl

end TrimLemmas

section SplitLemmas

theorem splitNl_ne_nil (s : List Char) : splitNl s ≠ [] := by
  cases s with
  | nil => simp [splitNl]
  | cons c l =>
    cases h : splitNl l with
    | nil => simp [splitNl, h]
    | cons a t => by_cases hc : c = '\n' <;> simp [splitNl, h, hc]

theorem joinNl_cons {l : List Char} {ls : List (List Char)} (h : ls ≠ []) :
    joinNl (l :: ls) = l ++ '\n' :: joinNl ls := by
  cases ls with
  | nil => exact absurd rfl h
  | cons m ms => rfl

theorem splitNl_no_nl {s : List Char} (h : ∀ c ∈ s, c ≠ '\n') : splitNl s = [s] := by
  induction s with
  | nil => rfl
  | cons c l ih =>
    have hc : c ≠ '\n' := h c (List.mem_cons_self _ _)
    rw [splitNl, ih (fun d hd => h d (List.mem_cons_of_mem _ hd))]
    simp [hc]

theorem splitNl_append_nl {xs ys : List Char} (h : ∀ c ∈ xs, c ≠ '\n') :
    splitNl (xs ++ '\n' :: ys) = xs :: splitNl ys := by
  induction xs with
  | nil =>
    rw [List.nil_append, splitNl]
    cases hy : splitNl ys with
    | nil => exact absurd hy (splitNl_ne_nil ys)
    | cons a t => simp [← hy]
  | cons c xs' ih =>
    have hc : c ≠ '\n' := h c (List.mem_cons_self _ _)
    rw [List.cons_append, splitNl, ih (fun d hd => h d (List.mem_cons_of_mem _ hd))]
    simp [hc]

theorem exists_first_nl {s : List Char} (h : '\n' ∈ s) :
    ∃ t₀ s', s = t₀ ++ '\n' :: s' ∧ ∀ c ∈ t₀, c ≠ '\n' := by
  induction s with
  | nil => cases h
  | cons c l ih =>
    by_cases hc : c = '\n'
    · subst hc
      exact ⟨[], l, rfl, by simp⟩
    · have hl : '\n' ∈ l := by
        rcases List.mem_cons.mp h with h1 | h1
        · exact absurd h1.symm hc
        · exact h1
      obtain ⟨t₀, s', rfl, hall⟩ := ih hl
      refine ⟨c :: t₀, s', rfl, ?_⟩
      intro d hd
      rcases List.mem_cons.mp hd with rfl | hd'
      · exact hc
      · exact hall d hd'

theorem trimLines_no_nl {s : List Char} (h : ∀ c ∈ s, c ≠ '\n') :
    trimLines s = jsTrim s := by
  rw [trimLines, splitNl_no_nl h]
  rfl

theorem trimLines_split {t₀ s' : List Char} (h : ∀ c ∈ t₀, c ≠ '\n') :
    trimLines (t₀ ++ '\n' :: s') = jsTrim t₀ ++ '\n' :: trimLines s' := by
  rw [trimLines, splitNl_append_nl h, List.map_cons, joinNl_cons]
  · rfl
  · simp [splitNl_ne_nil]

theorem trimLines_nil : trimLines [] = [] := rfl

theorem mem_trimLines_aux :
    ∀ (n : Nat) (s : List Char), s.length ≤ n →
      ∀ c ∈ trimLines s, c ∈ s ∨ c = '\n' := by
  intro n
  induction n with
  | zero =>
    intro s hs c hc
    have h0 : s = [] := List.length_eq_zero.mp (Nat.le_zero.mp hs)
    subst h0
    rw [trimLines_nil] at hc
    cases hc
  | succ n ih =>
    intro s hs c hc
    by_cases hnl : '\n' ∈ s
    · obtain ⟨t₀, s', rfl, hall⟩ := exists_first_nl hnl
      rw [trimLines_split hall] at hc
      rcases List.mem_append.mp hc with h1 | h2
      · exact Or.inl (List.mem_append_left _ (mem_jsTrim h1))
      · rcases List.mem_cons.mp h2 with rfl | h3
        · exact Or.inr rfl
        · have hlen : s'.length ≤ n := by
            rw [List.length_append, List.length_cons] at hs
            omega
          rcases ih s' hlen c h3 with h4 | h4
          · exact Or.inl (List.mem_append_right _ (List.mem_cons_of_mem _ h4))
          · exact Or.inr h4
    · rw [trimLines_no_nl (fun d hd he => hnl (he ▸ hd))] at hc
      exact Or.inl (mem_jsTrim hc)

theorem mem_trimLines {s : List Char} {c : Char} (hc : c ∈ trimLines s) :
    c ∈ s ∨ c = '\n' :=
  mem_trimLines_aux s.length s le_rfl c hc

theorem headOkNl_of_headOk {s : List Char} (h : headOk s = true) : headOkNl s = true := by
  rw [headOk] at h
  rw [headOkNl]
  cases hh : s.head? with
  | none => rfl
  | some c =>
    rw [hh] at h
    simp only [Bool.or_eq_true]
    exact Or.inl h

theorem headOkNl_trimLines (s : List Char) : headOkNl (trimLines s) = true := by
  by_cases hnl : '\n' ∈ s
  · obtain ⟨t₀, s', rfl, hall⟩ := exists_first_nl hnl
    rw [trimLines_split hall, headOkNl]
    cases hj : jsTrim t₀ with
    | nil => simp
    | cons a t =>
      have ha := headOk_jsTrim t₀
      rw [hj, headOk] at ha
      simp only [List.head?_cons] at ha
      simp [ha]
  · rw [trimLines_no_nl (fun d hd he => hnl (he ▸ hd))]
    exact headOkNl_of_headOk (headOk_jsTrim s)

end SplitLemmas

section CharFacts

theorem okChar_elim {c : Char} (h : okChar c = true) :
    c ≠ zwsp ∧ c ≠ '\r' ∧ (jsWs c = false ∨ c = ' ' ∨ c = '\n') := by
  rw [okChar] at h
  simp only [Bool.and_eq_true, Bool.or_eq_true, bne_iff_ne, Bool.not_eq_true',
    beq_iff_eq] at h
  tauto

theorem hws_elim {c : Char} (h : hws c = true) :
    jsWs c = true ∧ c ≠ '\r' ∧ c ≠ '\n' := by
  rw [hws] at h
  simp only [Bool.and_eq_true, bne_iff_ne] at h
  tauto

theorem hws_space {c : Char} (hall : okChar c = true) (h : hws c = true) : c = ' ' := by
  obtain ⟨-, -, h3⟩ := okChar_elim hall
  obtain ⟨hw, -, hn⟩ := hws_elim h
  rcases h3 with h3 | h3 | h3
  · rw [hw] at h3
    cases h3
  · exact h3
  · exact absurd h3 hn

theorem okPair_elim {a b : Char} (h : okPair a b = true) :
    jsWs a = false ∨ jsWs b = false ∨ (a = '\n' ∧ b = '\n') := by
  rw [okPair] at h
  simp only [Bool.or_eq_true, Bool.not_eq_true', Bool.and_eq_true, beq_iff_eq] at h
  rcases h with h | h
  · rcases Bool.and_eq_false_iff.mp h with h1 | h1
    · exact Or.inl (by simpa using h1)
    · exact Or.inr (Or.inl (by simpa using h1))
  · exact Or.inr (Or.inr h)

theorem jsWs_space : jsWs ' ' = true := by decide

theorem jsWs_nl : jsWs '\n' = true := by decide

theorem jsWs_tab : jsWs '\t' = true := by decide

theorem okChar_tab_false : okChar '\t' = false := by decide

theorem not_hws_nl : hws '\n' = false := by decide

theorem not_hws_of_okPair_space {b : Char} (h : okPair ' ' b = true) :
    hws b = false := by
  rcases okPair_elim h with h1 | h1 | h1
  · rw [jsWs_space] at h1
    cases h1
  · rw [hws, h1]
    rfl
  · cases h1.1

end CharFacts

section IdentityLemmas

theorem collapseRuns_cons_not_hws {c : Char} {l : List Char} {b : Bool}
    (hc : hws c = false) : collapseRuns b (c :: l) = c :: collapseRuns false l := by
  rw [collapseRuns, if_neg (by simp [hc])]

theorem collapseRuns_id (s : List Char) (hall : s.all okChar = true)
    (hpair : pairScan okPair s = true) :
    collapseRuns false s = s ∧
      ((∀ c, s.head? = some c → hws c = false) → collapseRuns true s = s) := by
  induction s with
  | nil => simp [collapseRuns]
  | cons c l ih =>
    have hallc : okChar c = true := by
      rw [List.all_cons, Bool.and_eq_true] at hall
      exact hall.1
    have halll : l.all okChar = true := by
      rw [List.all_cons, Bool.and_eq_true] at hall
      exact hall.2
    obtain ⟨ihf, iht⟩ := ih halll (pairScan_tail hpair)
    by_cases hc : hws c = true
    · have hcsp : c = ' ' := hws_space hallc hc
      have htl : collapseRuns true l = l := by
        refine iht ?_
        intro d hd
        subst hcsp
        exact not_hws_of_okPair_space (pairScan_head hpair hd)
      constructor
      · rw [collapseRuns, if_pos hc]
        simp only [Bool.false_eq_true, if_false, htl]
        rw [hcsp]
      · intro hhead
        exact absurd (hhead c rfl) (by simp [hc])
    · have hc' : hws c = false := by simpa using hc
      refine ⟨?_, fun _ => ?_⟩ <;>
        rw [collapseRuns_cons_not_hws hc', ihf]

theorem stripTrail_cons (c : Char) (l : List Char) :
    stripTrail (c :: l) =
      if (c == ' ' || c == '\t') && (stripTrail l).head? == some '\n'
      then stripTrail l else c :: stripTrail l := rfl

theorem stripTrail_id (s : List Char) (hall : s.all okChar = true)
    (hpair : pairScan okPair s = true) : stripTrail s = s := by
  induction s with
  | nil => rfl
  | cons c l ih =>
    have hallc : okChar c = true := by
      rw [List.all_cons, Bool.and_eq_true] at hall
      exact hall.1
    have halll : l.all okChar = true := by
      rw [List.all_cons, Bool.and_eq_true] at hall
      exact hall.2
    have ihl : stripTrail l = l := ih halll (pairScan_tail hpair)
    rw [stripTrail_cons, ihl, if_neg]
    intro hcond
    simp only [Bool.and_eq_true, Bool.or_eq_true, beq_iff_eq] at hcond
    obtain ⟨hc, hh⟩ := hcond
    rcases hc with hc | hc
    · have hp := pairScan_head hpair hh
      subst hc
      rcases okPair_elim hp with h1 | h1 | h1
      · rw [jsWs_space] at h1
        cases h1
      · rw [jsWs_nl] at h1
        cases h1
      · cases h1.1
    · subst hc
      rw [okChar_tab_false] at hallc
      cases hallc

theorem noTriple_cons_eq (a : Char) (l : List Char) :
    noTriple (a :: l) =
      (!(a == '\n' && l.take 2 == ['\n', '\n']) && noTriple l) := rfl

theorem noTriple_tail {a : Char} {l : List Char}
    (h : noTriple (a :: l) = true) : noTriple l = true := by
  rw [noTriple_cons_eq, Bool.and_eq_true] at h
  exact h.2

theorem squeezeNl_cons (c : Char) (l : List Char) :
    squeezeNl (c :: l) =
      if c == '\n' && (squeezeNl l).take 2 == ['\n', '\n']
      then squeezeNl l else c :: squeezeNl l := rfl

theorem squeezeNl_id (s : List Char) (h : noTriple s = true) : squeezeNl s = s := by
  induction s with
  | nil => rfl
  | cons c l ih =>
    have ihl := ih (noTriple_tail h)
    rw [squeezeNl_cons, ihl, if_neg]
    intro hcond
    simp only [Bool.and_eq_true, beq_iff_eq] at hcond
    rw [noTriple_cons_eq, Bool.and_eq_true] at h
    have h1 := h.1
    simp [hcond.1, hcond.2] at h1

theorem mem_of_head?_eq {α : Type} {l : List α} {a : α} (h : l.head? = some a) :
    a ∈ l := by
  cases l with
  | nil => cases h
  | cons b t =>
    simp only [List.head?_cons, Option.some.injEq] at h
    simp [h]

theorem mem_of_getLast?_eq {α : Type} {l : List α} {a : α} (h : l.getLast? = some a) :
    a ∈ l := by
  rw [← List.head?_reverse] at h
  exact List.mem_reverse.mp (mem_of_head?_eq h)

theorem getLast?_append_right {α : Type} {xs ys : List α} (h : ys ≠ []) :
    (xs ++ ys).getLast? = ys.getLast? := by
  rw [← List.head?_reverse, ← List.head?_reverse, List.reverse_append]
  cases hy : ys.reverse with
  | nil => exact absurd (by simpa using hy) h
  | cons a t => simp [hy]

theorem trimLines_id_aux :
    ∀ (n : Nat) (s : List Char), s.length ≤ n →
      s.all okChar = true → pairScan okPair s = true →
      headOkNl s = true → lastOk s = true → trimLines s = s := by
  intro n
  induction n with
  | zero =>
    intro s hs _ _ _ _
    have h0 : s = [] := List.length_eq_zero.mp (Nat.le_zero.mp hs)
    subst h0
    rfl
  | succ n ih =>
    intro s hs hall hpair hhead hlast
    by_cases hnl : '\n' ∈ s
    · obtain ⟨t₀, s', rfl, hall0⟩ := exists_first_nl hnl
      rw [trimLines_split hall0]
      have ht0 : jsTrim t₀ = t₀ := by
        refine jsTrim_eq_self ?_ ?_
        · rw [headOk]
          cases hh : t₀.head? with
          | none => rfl
          | some c =>
            have hsc : (t₀ ++ '\n' :: s').head? = some c := by
              cases t₀ with
              | nil => cases hh
              | cons a t => simpa using hh
            rw [headOkNl, hsc] at hhead
            simp only [Bool.or_eq_true, beq_iff_eq] at hhead
            rcases hhead with h1 | h1
            · exact h1
            · exact absurd h1 (hall0 c (mem_of_head?_eq hh))
        · rw [lastOk]
          cases hl : t₀.getLast? with
          | none => rfl
          | some a =>
            have hp : okPair a '\n' = true :=
              pairScan_append_pair hpair hl (by simp)
            rcases okPair_elim hp with h1 | h1 | h1
            · simp [h1]
            · rw [jsWs_nl] at h1
              cases h1
            · exact absurd h1.1 (hall0 a (mem_of_getLast?_eq hl))
      have hs' : trimLines s' = s' := by
        refine ih s' ?_ ?_ (pairScan_tail (pairScan_append_right hpair)) ?_ ?_
        · rw [List.length_append, List.length_cons] at hs
          omega
        · simp only [List.all_append, List.all_cons, Bool.and_eq_true] at hall
          exact hall.2.2
        · rw [headOkNl]
          cases hh : s'.head? with
          | none => rfl
          | some b =>
            have hp := pairScan_head (pairScan_append_right hpair) hh
            rcases okPair_elim hp with h1 | h1 | h1
            · rw [jsWs_nl] at h1
              cases h1
            · simp [h1]
            · simp [h1.2]
        · cases hse : s' with
          | nil => rfl
          | cons b t =>
            have hgl : (t₀ ++ '\n' :: s').getLast? = s'.getLast? := by
              rw [getLast?_append_right (by simp)]
              rw [show ('\n' :: s').getLast? = s'.getLast? from by
                rw [hse, List.getLast?_cons_cons]]
            rw [lastOk, ← hse, ← hgl]
            rw [lastOk] at hlast
            exact hlast
      rw [ht0, hs']
    · rw [trimLines_no_nl (fun d hd he => hnl (he ▸ hd))]
      refine jsTrim_eq_self ?_ hlast
      rw [headOk]
      cases hh : s.head? with
      | none => rfl
      | some c =>
        rw [headOkNl, hh] at hhead
        simp only [Bool.or_eq_true, beq_iff_eq] at hhead
        rcases hhead with h1 | h1
        · exact h1
        · exact absurd (h1 ▸ mem_of_head?_eq hh) hnl

theorem NF_elim {s : List Char} (h : NF s = true) :
    s.all okChar = true ∧ pairScan okPair s = true ∧ noTriple s = true ∧
      headOk s = true ∧ lastOk s = true := by
  rw [NF] at h
  simp only [Bool.and_eq_true] at h
  tauto

theorem filter_zwsp_id {s : List Char} (hall : s.all okChar = true) :
    s.filter (fun c => c != zwsp) = s := by
  rw [List.filter_eq_self]
  intro a ha
  rw [List.all_eq_true] at hall
  have := (okChar_elim (hall a ha)).1
  simpa using this

/-- Direction one of idempotence: `cleanText` is the identity on strings in
normal form. -/
theorem cleanText_of_NF {s : List Char} (h : NF s = true) : cleanText s = s := by
  obtain ⟨hall, hpair, htriple, hhead, hlast⟩ := NF_elim h
  rw [cleanText]
  by_cases hnil : s = []
  · rw [if_pos hnil]
  · rw [if_neg hnil, filter_zwsp_id hall]
    rw [show collapseWs s = s from (collapseRuns_id s hall hpair).1]
    rw [stripTrail_id s hall hpair]
    rw [squeezeNl_id s htriple]
    rw [trimLines_id_aux s.length s le_rfl hall hpair (headOkNl_of_headOk hhead) hlast]
    exact jsTrim_eq_self hhead hlast

end IdentityLemmas

section ForwardInvariants

theorem okChar_space : okChar ' ' = true := by decide

theorem okChar_nl : okChar '\n' = true := by decide

theorem hws_space_true : hws ' ' = true := by decide

theorem okChar_of_parts {c : Char} (h1 : c ≠ zwsp) (h2 : c ≠ '\r')
    (h3 : hws c = false) : okChar c = true := by
  rw [okChar, bne_iff_ne.mpr h1, bne_iff_ne.mpr h2, Bool.true_and, Bool.true_and]
  by_cases hn : c = '\n'
  · simp [hn]
  · by_cases hw : jsWs c = true
    · exfalso
      have : hws c = true := by
        rw [hws, hw, bne_iff_ne.mpr h2, bne_iff_ne.mpr hn]
        rfl
      rw [this] at h3
      cases h3
    · have hwf : jsWs c = false := by simpa using hw
      simp [hwf]

theorem space_of_ws {c : Char} (hok : okChar c = true) (hw : jsWs c = true)
    (hn : c ≠ '\n') : c = ' ' := by
  rcases (okChar_elim hok).2.2 with h | h | h
  · rw [hw] at h
    cases h
  · exact h
  · exact absurd h hn

theorem collapseRuns_cons (b : Bool) (d : Char) (t : List Char) :
    collapseRuns b (d :: t) =
      if hws d then (if b then collapseRuns true t else ' ' :: collapseRuns true t)
      else d :: collapseRuns false t := rfl

theorem mem_collapseRuns {c : Char} :
    ∀ {b : Bool} {s : List Char}, c ∈ collapseRuns b s →
      c = ' ' ∨ (c ∈ s ∧ hws c = false) := by
  intro b s
  induction s generalizing b with
  | nil => intro h; cases h
  | cons d t ih =>
    intro h
    rw [collapseRuns_cons] at h
    by_cases hd : hws d = true
    · rw [if_pos hd] at h
      cases b with
      | true =>
        rcases ih h with h1 | h1
        · exact Or.inl h1
        · exact Or.inr ⟨List.mem_cons_of_mem _ h1.1, h1.2⟩
      | false =>
        rcases List.mem_cons.mp h with rfl | h1
        · exact Or.inl rfl
        · rcases ih h1 with h2 | h2
          · exact Or.inl h2
          · exact Or.inr ⟨List.mem_cons_of_mem _ h2.1, h2.2⟩
    · rw [if_neg hd] at h
      rcases List.mem_cons.mp h with rfl | h1
      · exact Or.inr ⟨List.mem_cons_self _ _, by simpa using hd⟩
      · rcases ih h1 with h2 | h2
        · exact Or.inl h2
        · exact Or.inr ⟨List.mem_cons_of_mem _ h2.1, h2.2⟩

theorem head?_collapseRuns_true {c : Char} :
    ∀ {s : List Char}, (collapseRuns true s).head? = some c → hws c = false := by
  intro s
  induction s with
  | nil => intro h; cases h
  | cons d t ih =>
    intro h
    rw [collapseRuns_cons] at h
    by_cases hd : hws d = true
    · rw [if_pos hd, if_pos rfl] at h
      exact ih h
    · rw [if_neg hd, List.head?_cons] at h
      simp only [Option.some.injEq] at h
      subst h
      simpa using hd

theorem pairScan_hwsPair_collapseRuns (b : Bool) (s : List Char) :
    pairScan hwsPair (collapseRuns b s) = true := by
  induction s generalizing b with
  | nil => cases b <;> rfl
  | cons d t ih =>
    rw [collapseRuns_cons]
    by_cases hd : hws d = true
    · rw [if_pos hd]
      cases b with
      | true => exact ih true
      | false =>
        rw [if_neg (by simp)]
        refine pairScan_cons_of ?_ (ih true)
        intro e he
        rw [hwsPair, head?_collapseRuns_true he]
        simp
    · rw [if_neg hd]
      refine pairScan_cons_of ?_ (ih false)
      intro e he
      rw [hwsPair]
      have hdf : hws d = false := by simpa using hd
      simp [hdf]

theorem mem_stripTrail {c : Char} : ∀ {s : List Char}, c ∈ stripTrail s → c ∈ s := by
  intro s
  induction s with
  | nil => intro h; cases h
  | cons d t ih =>
    intro h
    rw [stripTrail_cons] at h
    by_cases hcond : ((d == ' ' || d == '\t') && (stripTrail t).head? == some '\n') = true
    · rw [if_pos hcond] at h
      exact List.mem_cons_of_mem _ (ih h)
    · rw [if_neg hcond] at h
      rcases List.mem_cons.mp h with rfl | h1
      · exact List.mem_cons_self _ _
      · exact List.mem_cons_of_mem _ (ih h1)

theorem pairScan_spTabNl_stripTrail (s : List Char) :
    pairScan spTabNlPair (stripTrail s) = true := by
  induction s with
  | nil => rfl
  | cons d t ih =>
    rw [stripTrail_cons]
    by_cases hcond : ((d == ' ' || d == '\t') && (stripTrail t).head? == some '\n') = true
    · rw [if_pos hcond]
      exact ih
    · rw [if_neg hcond]
      refine pairScan_cons_of ?_ ih
      intro b hb
      rw [spTabNlPair]
      by_cases hsp : (d == ' ' || d == '\t') = true
      · by_cases hbn : b = '\n'
        · exfalso
          apply hcond
          rw [Bool.and_eq_true]
          refine ⟨hsp, ?_⟩
          rw [hb, hbn]
          exact beq_self_eq_true _
        · simp [hbn]
      · have hspf : (d == ' ' || d == '\t') = false := by simpa using hsp
        simp [hspf]

theorem head?_stripTrail {c : Char} :
    ∀ {s : List Char}, (stripTrail s).head? = some c →
      s.head? = some c ∨ c = '\n' := by
  intro s
  induction s with
  | nil => intro h; cases h
  | cons d t ih =>
    intro h
    rw [stripTrail_cons] at h
    by_cases hcond : ((d == ' ' || d == '\t') && (stripTrail t).head? == some '\n') = true
    · rw [if_pos hcond] at h
      rw [Bool.and_eq_true] at hcond
      have h2 := hcond.2
      rw [h] at h2
      simp only [beq_iff_eq, Option.some.injEq] at h2
      exact Or.inr h2
    · rw [if_neg hcond, List.head?_cons] at h
      simp only [Option.some.injEq] at h
      exact Or.inl (by rw [List.head?_cons, h])

theorem pairScan_stripTrail_pres {p : Char → Char → Bool}
    (hnl : ∀ a, p a '\n' = true) :
    ∀ {s : List Char}, pairScan p s = true → pairScan p (stripTrail s) = true := by
  intro s
  induction s with
  | nil => intro _; rfl
  | cons d t ih =>
    intro h
    rw [stripTrail_cons]
    by_cases hcond : ((d == ' ' || d == '\t') && (stripTrail t).head? == some '\n') = true
    · rw [if_pos hcond]
      exact ih (pairScan_tail h)
    · rw [if_neg hcond]
      refine pairScan_cons_of ?_ (ih (pairScan_tail h))
      intro b hb
      rcases head?_stripTrail hb with h1 | h1
      · exact pairScan_head h h1
      · rw [h1]
        exact hnl d

theorem hwsPair_nl (a : Char) : hwsPair a '\n' = true := by
  rw [hwsPair, not_hws_nl]
  simp

theorem mem_squeezeNl {c : Char} : ∀ {s : List Char}, c ∈ squeezeNl s → c ∈ s := by
  intro s
  induction s with
  | nil => intro h; cases h
  | cons d t ih =>
    intro h
    rw [squeezeNl_cons] at h
    by_cases hcond : (d == '\n' && (squeezeNl t).take 2 == ['\n', '\n']) = true
    · rw [if_pos hcond] at h
      exact List.mem_cons_of_mem _ (ih h)
    · rw [if_neg hcond] at h
      rcases List.mem_cons.mp h with rfl | h1
      · exact List.mem_cons_self _ _
      · exact List.mem_cons_of_mem _ (ih h1)

theorem head?_of_take_two {l : List Char} {a b : Char}
    (h : l.take 2 = [a, b]) : l.head? = some a := by
  cases l with
  | nil => cases h
  | cons x t =>
    simp only [List.take_succ_cons, List.cons.injEq] at h
    rw [List.head?_cons, h.1]

theorem head?_squeezeNl : ∀ (s : List Char), (squeezeNl s).head? = s.head? := by
  intro s
  induction s with
  | nil => rfl
  | cons d t ih =>
    rw [squeezeNl_cons]
    by_cases hcond : (d == '\n' && (squeezeNl t).take 2 == ['\n', '\n']) = true
    · rw [if_pos hcond]
      simp only [Bool.and_eq_true, beq_iff_eq] at hcond
      obtain ⟨hd, ht⟩ := hcond
      rw [head?_of_take_two ht, List.head?_cons, hd]
    · rw [if_neg hcond]
      simp

theorem pairScan_squeezeNl_pres {p : Char → Char → Bool} :
    ∀ {s : List Char}, pairScan p s = true → pairScan p (squeezeNl s) = true := by
  intro s
  induction s with
  | nil => intro _; rfl
  | cons d t ih =>
    intro h
    rw [squeezeNl_cons]
    by_cases hcond : (d == '\n' && (squeezeNl t).take 2 == ['\n', '\n']) = true
    · rw [if_pos hcond]
      exact ih (pairScan_tail h)
    · rw [if_neg hcond]
      refine pairScan_cons_of ?_ (ih (pairScan_tail h))
      intro b hb
      rw [head?_squeezeNl] at hb
      exact pairScan_head h hb

theorem noTriple_squeezeNl (s : List Char) : noTriple (squeezeNl s) = true := by
  induction s with
  | nil => rfl
  | cons d t ih =>
    rw [squeezeNl_cons]
    by_cases hcond : (d == '\n' && (squeezeNl t).take 2 == ['\n', '\n']) = true
    · rw [if_pos hcond]
      exact ih
    · rw [if_neg hcond]
      rw [noTriple_cons_eq, Bool.and_eq_true]
      refine ⟨?_, ih⟩
      simp only [Bool.not_eq_true] at hcond
      simp [hcond]

end ForwardInvariants

section TrimLinesInvariant

theorem noTriple_no_nl {l : List Char} (h : ∀ c ∈ l, c ≠ '\n') :
    noTriple l = true := by
  induction l with
  | nil => rfl
  | cons a t ih =>
    rw [noTriple_cons_eq, Bool.and_eq_true]
    refine ⟨?_, ih fun c hc => h c (List.mem_cons_of_mem _ hc)⟩
    simp [h a (List.mem_cons_self _ _)]

theorem noTriple_append_right {xs ys : List Char}
    (h : noTriple (xs ++ ys) = true) : noTriple ys = true := by
  induction xs with
  | nil => exact h
  | cons a t ih => exact ih (noTriple_tail (by rwa [List.cons_append] at h))

theorem take_two_append {xs ys : List Char} {a b : Char} (h : xs.take 2 = [a, b]) :
    (xs ++ ys).take 2 = [a, b] := by
  cases xs with
  | nil => cases h
  | cons x t =>
    cases t with
    | nil => exact absurd h (by simp)
    | cons y t' =>
      have h2 : x = a ∧ y = b := by simpa using h
      simp [h2.1, h2.2]

theorem noTriple_append_left {xs ys : List Char}
    (h : noTriple (xs ++ ys) = true) : noTriple xs = true := by
  induction xs with
  | nil => rfl
  | cons a t ih =>
    rw [List.cons_append] at h
    rw [noTriple_cons_eq, Bool.and_eq_true]
    refine ⟨?_, ih (noTriple_tail h)⟩
    rw [noTriple_cons_eq, Bool.and_eq_true] at h
    have h1 := h.1
    by_cases ha : a = '\n'
    · by_cases ht : t.take 2 = ['\n', '\n']
      · exfalso
        rw [ha, take_two_append ht] at h1
        simp at h1
      · simp [ht]
    · simp [ha]

theorem noTriple_jsTrim {s : List Char} (h : noTriple s = true) :
    noTriple (jsTrim s) = true := by
  obtain ⟨u, hu, -⟩ := exists_append_dropWhile (p := jsWs) s
  obtain ⟨v, hv, -⟩ := exists_dropTrail_append (p := jsWs) (s.dropWhile jsWs)
  rw [hu] at h
  have h2 := noTriple_append_right h
  rw [hv] at h2
  exact noTriple_append_left h2

theorem noTriple_append_no_nl {xs ys : List Char} (hx : ∀ c ∈ xs, c ≠ '\n')
    (hy : noTriple ys = true) : noTriple (xs ++ ys) = true := by
  induction xs with
  | nil => exact hy
  | cons a t ih =>
    rw [List.cons_append, noTriple_cons_eq, Bool.and_eq_true]
    refine ⟨?_, ih fun c hc => hx c (List.mem_cons_of_mem _ hc)⟩
    simp [hx a (List.mem_cons_self _ _)]

theorem okPair_of_left_nonws {a b : Char} (h : jsWs a = false) :
    okPair a b = true := by
  rw [okPair]
  simp [h]

theorem okPair_of_right_nonws {a b : Char} (h : jsWs b = false) :
    okPair a b = true := by
  rw [okPair]
  simp [h]

theorem okPair_nl_nl : okPair '\n' '\n' = true := by decide

theorem okPair_of_hwsPair {a b : Char} (ha : okChar a = true) (hb : okChar b = true)
    (hna : a ≠ '\n') (hnb : b ≠ '\n') (h : hwsPair a b = true) : okPair a b = true := by
  by_cases hwa : jsWs a = true
  · have ha' : a = ' ' := space_of_ws ha hwa hna
    by_cases hwb : jsWs b = true
    · have hb' : b = ' ' := space_of_ws hb hwb hnb
      exfalso
      rw [ha', hb', hwsPair, hws_space_true] at h
      simp at h
    · exact okPair_of_right_nonws (by simpa using hwb)
  · exact okPair_of_left_nonws (by simpa using hwa)

theorem take_one_of_head? {l : List Char} {a : Char} (h : l.head? = some a) :
    l.take 1 = [a] := by
  cases l with
  | nil => cases h
  | cons x t =>
    simp only [List.head?_cons, Option.some.injEq] at h
    simp [h]

theorem head?_of_take_one {l : List Char} {a : Char} (h : l.take 1 = [a]) :
    l.head? = some a := by
  cases l with
  | nil => cases h
  | cons x t =>
    have : x = a := by simpa using h
    simp [this]

theorem cleanText_eq_stages {s : List Char} (h : s ≠ []) :
    cleanText s = jsTrim (trimLines (preClean s)) := by
  rw [cleanText, if_neg h]
  rfl

theorem all_okChar_preClean {s : List Char} (hcr : '\r' ∉ s) :
    (preClean s).all okChar = true := by
  rw [List.all_eq_true]
  intro c hc
  rw [preClean] at hc
  rcases mem_collapseRuns (mem_stripTrail (mem_squeezeNl hc)) with h | ⟨hmem, hhws⟩
  · rw [h]
    exact okChar_space
  · rw [List.mem_filter] at hmem
    obtain ⟨hcs, hcz⟩ := hmem
    exact okChar_of_parts (by simpa using hcz) (fun he => hcr (he ▸ hcs)) hhws

theorem pairScan_hwsPair_preClean (s : List Char) :
    pairScan hwsPair (preClean s) = true :=
  pairScan_squeezeNl_pres
    (pairScan_stripTrail_pres hwsPair_nl (pairScan_hwsPair_collapseRuns false _))

theorem pairScan_spTabNl_preClean (s : List Char) :
    pairScan spTabNlPair (preClean s) = true :=
  pairScan_squeezeNl_pres (pairScan_spTabNl_stripTrail _)

theorem noTriple_preClean (s : List Char) : noTriple (preClean s) = true :=
  noTriple_squeezeNl _

theorem t0_empty_of_trim_nil {t₀ s' : List Char}
    (hall : (t₀ ++ '\n' :: s').all okChar = true)
    (hsp : pairScan spTabNlPair (t₀ ++ '\n' :: s') = true)
    (hnl : ∀ c ∈ t₀, c ≠ '\n')
    (htrim : jsTrim t₀ = []) : t₀ = [] := by
  cases ht : t₀ with
  | nil => rfl
  | cons c rest =>
    exfalso
    subst ht
    obtain ⟨a, ha⟩ : ∃ a, (c :: rest).getLast? = some a := by
      cases hgl : (c :: rest).getLast? with
      | some a => exact ⟨a, rfl⟩
      | none =>
        rw [← List.head?_reverse] at hgl
        cases hrev : (c :: rest).reverse with
        | nil => exact absurd hrev (by simp)
        | cons x xs =>
          rw [hrev] at hgl
          cases hgl
    have hamem : a ∈ c :: rest := mem_of_getLast?_eq ha
    have haws : jsWs a = true := jsTrim_eq_nil_iff.mp htrim a hamem
    have haok : okChar a = true := by
      rw [List.all_eq_true] at hall
      exact hall a (List.mem_append_left _ hamem)
    have hasp : a = ' ' := space_of_ws haok haws (hnl a hamem)
    have hp := pairScan_append_pair hsp ha
      (show ('\n' :: s').head? = some '\n' from rfl)
    rw [hasp, spTabNlPair] at hp
    simp at hp

theorem trimLines_inv_aux :
    ∀ (n : Nat) (s : List Char), s.length ≤ n →
      s.all okChar = true → pairScan hwsPair s = true →
      pairScan spTabNlPair s = true → noTriple s = true →
      pairScan okPair (trimLines s) = true ∧ noTriple (trimLines s) = true ∧
      ((trimLines s).head? = some '\n' → s.head? = some '\n') ∧
      ((trimLines s).take 2 = ['\n', '\n'] → s.take 2 = ['\n', '\n']) := by
  intro n
  induction n with
  | zero =>
    intro s hs _ _ _ _
    have h0 : s = [] := List.length_eq_zero.mp (Nat.le_zero.mp hs)
    subst h0
    refine ⟨rfl, rfl, ?_, ?_⟩
    · intro h
      rw [trimLines_nil] at h
      cases h
    · intro h
      rw [trimLines_nil] at h
      cases h
  | succ n ih =>
    intro s hs hall hhws hsp htr
    by_cases hnl : '\n' ∈ s
    · obtain ⟨t₀, s', rfl, hall0⟩ := exists_first_nl hnl
      rw [trimLines_split hall0]
      have halls' : s'.all okChar = true := by
        simp only [List.all_append, List.all_cons, Bool.and_eq_true] at hall
        exact hall.2.2
      have hallt0 : t₀.all okChar = true := by
        simp only [List.all_append, List.all_cons, Bool.and_eq_true] at hall
        exact hall.1
      have hhws' : pairScan hwsPair s' = true := pairScan_tail (pairScan_append_right hhws)
      have hsp' : pairScan spTabNlPair s' = true := pairScan_tail (pairScan_append_right hsp)
      have htr' : noTriple s' = true := noTriple_tail (noTriple_append_right htr)
      have hlen' : s'.length ≤ n := by
        rw [List.length_append, List.length_cons] at hs
        omega
      obtain ⟨ih2, ih3, ih6, ih5⟩ := ih s' hlen' halls' hhws' hsp' htr'
      have hokt0 : pairScan okPair (jsTrim t₀) = true := by
        refine pairScan_jsTrim ?_
        refine pairScan_mono ?_ (pairScan_append_left hhws)
        intro a b hma hmb hp
        rw [List.all_eq_true] at hallt0
        exact okPair_of_hwsPair (hallt0 a hma) (hallt0 b hmb)
          (hall0 a hma) (hall0 b hmb) hp
      have hnlt0 : ∀ c ∈ jsTrim t₀, c ≠ '\n' := fun c hc => hall0 c (mem_jsTrim hc)
      have hys : pairScan okPair ('\n' :: trimLines s') = true := by
        refine pairScan_cons_of ?_ ih2
        intro b hb
        have hok := headOkNl_trimLines s'
        rw [headOkNl, hb] at hok
        simp only [Bool.or_eq_true, beq_iff_eq] at hok
        rcases hok with h1 | h1
        · exact okPair_of_right_nonws (by simpa using h1)
        · rw [h1]
          exact okPair_nl_nl
      have hnotrip_ys : noTriple ('\n' :: trimLines s') = true := by
        rw [noTriple_cons_eq, Bool.and_eq_true]
        refine ⟨?_, ih3⟩
        by_cases h2 : (trimLines s').take 2 = ['\n', '\n']
        · exfalso
          have h3 := ih5 h2
          have h4 := noTriple_append_right htr
          rw [noTriple_cons_eq, Bool.and_eq_true] at h4
          have h5 := h4.1
          simp [h3] at h5
        · simp [h2]
      refine ⟨?_, ?_, ?_, ?_⟩
      · refine pairScan_append_of hokt0 hys ?_
        intro a b hla hhb
        have hlok := lastOk_jsTrim t₀
        rw [lastOk, hla] at hlok
        exact okPair_of_left_nonws (by simpa using hlok)
      · exact noTriple_append_no_nl hnlt0 hnotrip_ys
      · intro hh
        cases hjt : jsTrim t₀ with
        | cons x xs =>
          exfalso
          rw [hjt, List.cons_append, List.head?_cons] at hh
          simp only [Option.some.injEq] at hh
          have hhead := headOk_jsTrim t₀
          rw [hjt, headOk, List.head?_cons, hh] at hhead
          simp [jsWs_nl] at hhead
        | nil =>
          have ht0 : t₀ = [] := t0_empty_of_trim_nil hall hsp hall0 hjt
          subst ht0
          rfl
      · intro hh
        cases hjt : jsTrim t₀ with
        | cons x xs =>
          exfalso
          rw [hjt, List.cons_append] at hh
          have hx : x = '\n' := by
            have := head?_of_take_two hh
            simpa using this
          have hhead := headOk_jsTrim t₀
          rw [hjt, headOk, List.head?_cons, hx] at hhead
          simp [jsWs_nl] at hhead
        | nil =>
          have ht0 : t₀ = [] := t0_empty_of_trim_nil hall hsp hall0 hjt
          subst ht0
          rw [hjt] at hh
          simp only [List.nil_append, List.take_succ_cons, List.cons.injEq,
            true_and] at hh ⊢
          have hh1 : (trimLines s').take 1 = ['\n'] := hh
          have hh2 := ih6 (head?_of_take_one hh1)
          exact take_one_of_head? hh2
    · have hnlall : ∀ c ∈ s, c ≠ '\n' := fun d hd he => hnl (he ▸ hd)
      rw [trimLines_no_nl hnlall]
      have hoks : pairScan okPair s = true := by
        refine pairScan_mono ?_ hhws
        intro a b hma hmb hp
        rw [List.all_eq_true] at hall
        exact okPair_of_hwsPair (hall a hma) (hall b hmb)
          (hnlall a hma) (hnlall b hmb) hp
      refine ⟨pairScan_jsTrim hoks,
        noTriple_no_nl fun c hc => hnlall c (mem_jsTrim hc), ?_, ?_⟩
      · intro hh
        exact absurd rfl (hnlall '\n' (mem_jsTrim (mem_of_head?_eq hh)))
      · intro hh
        exact absurd rfl
          (hnlall '\n' (mem_jsTrim (mem_of_head?_eq (head?_of_take_two hh))))

/-- Direction two of idempotence: on carriage-return-free input, the output
of `cleanText` is in normal form. -/
theorem NF_cleanText {s : List Char} (hcr : '\r' ∉ s) : NF (cleanText s) = true := by
  by_cases hnil : s = []
  · subst hnil
    decide
  · obtain ⟨p2, p3, -, -⟩ := trimLines_inv_aux (preClean s).length (preClean s) le_rfl
      (all_okChar_preClean hcr) (pairScan_hwsPair_preClean s)
      (pairScan_spTabNl_preClean s) (noTriple_preClean s)
    rw [cleanText_eq_stages hnil, NF]
    simp only [Bool.and_eq_true, List.all_eq_true]
    refine ⟨⟨⟨⟨?_, pairScan_jsTrim p2⟩, noTriple_jsTrim p3⟩,
      headOk_jsTrim _⟩, lastOk_jsTrim _⟩
    intro c hc
    rcases mem_trimLines (mem_jsTrim hc) with h1 | h1
    · have hall := all_okChar_preClean (s := s) hcr
      rw [List.all_eq_true] at hall
      exact hall c h1
    · rw [h1]
      exact okChar_nl

end TrimLinesInvariant

/-- C5 counterexample: `cleanText` is not idempotent on every string — on
`"a\n\r\n\nb"` the per-line trim deletes the line consisting of one
carriage return, creating a fresh run of three line feeds that only a
second application collapses. -/
theorem C5_counterexample :
    cleanText (cleanText ['a', '\n', '\r', '\n', '\n', 'b']) ≠
      cleanText ['a', '\n', '\r', '\n', '\n', 'b'] := by decide

/-- C5 (amended): `cleanText` is idempotent on every string that contains
no carriage return. -/
theorem C5_cleanText_idempotent (s : List Char) (hcr : '\r' ∉ s) :
    cleanText (cleanText s) = cleanText s :=
  cleanText_of_NF (NF_cleanText hcr)

/-- Witness for the amended C5 on a concrete string. -/
theorem C5_cleanText_idempotent_witness :
    cleanText (cleanText ['a', ' ', ' ', 'b', '\n']) =
      cleanText ['a', ' ', ' ', 'b', '\n'] :=
  C5_cleanText_idempotent ['a', ' ', ' ', 'b', '\n'] (by decide)

/-- C7 counterexample: the normalization contract does not hold for every
input string — on `"a\n\r\n\nb"` the output of `cleanText` is
`"a\n\n\nb"`, which still contains a run of three consecutive line feeds,
contradicting "collapses runs of 3 or more consecutive newlines to exactly
2" (the per-line trim deletes the carriage-return-only line after the
`\n{3,}` replacement has already run). -/
theorem C7_counterexample :
    cleanText ['a', '\n', '\r', '\n', '\n', 'b'] = ['a', '\n', '\n', '\n', 'b'] ∧
    noTriple ['a', '\n', '\n', '\n', 'b'] = false := by decide

/-- C7 (amended): `cleanText` maps the spec's scenarios as stated
(`"a   b\t\n\n\n\nc  "` to `"a b\n\nc"`, zero-width-space removal in
`"wo​rd"`) and removes every zero-width space from every input; the
remaining normalization clauses — collapsed whitespace runs, no trailing
whitespace before a line feed, at most two consecutive line feeds, and
trimmed lines and result — hold for every carriage-return-free input
(normal-form text), but not for strings containing carriage returns. -/
theorem C7_cleanText_normalization :
    cleanText "a   b\t\n\n\n\nc  ".toList = "a b\n\nc".toList ∧
    cleanText "wo​rd".toList = "word".toList ∧
    (∀ s : List Char, (cleanText s).all (fun c => c != zwsp) = true) ∧
    (∀ s : List Char, '\r' ∉ s → NF (cleanText s) = true) := by
  refine ⟨by decide, by decide, ?_, fun s h => NF_cleanText h⟩
  intro s
  rw [List.all_eq_true]
  intro c hc
  by_cases hnil : s = []
  · subst hnil
    rw [show cleanText [] = [] from rfl] at hc
    cases hc
  · rw [cleanText_eq_stages hnil] at hc
    rcases mem_trimLines (mem_jsTrim hc) with h1 | h1
    · rw [preClean] at h1
      rcases mem_collapseRuns (mem_stripTrail (mem_squeezeNl h1)) with h2 | ⟨h2, -⟩
      · rw [h2]
        decide
      · rw [List.mem_filter] at h2
        exact h2.2
    · rw [h1]
      decide

/-- Witness for C7's general clauses on a concrete string. -/
theorem C7_cleanText_normalization_witness :
    NF (cleanText ['x', ' ', 'y', '\n', 'z']) = true :=
  C7_cleanText_normalization.2.2.2 ['x', ' ', 'y', '\n', 'z'] (by decide)

end OCR
